import Mathlib

/-!
Shallow embedding of the bitcask key-value store (repository jsign/bitcask)
and verification of its specification claims.

Bytes are modelled as natural numbers (well-formed bytes are < 256), byte
strings as lists of naturals.  Go machine integers are modelled as Nat/Int
with explicit `% 2 ^ w` at the points where the source truncates
(`uint32(...)`, `uint64(...)` conversions and shifts).  Fallible operations
return `Except`/`Option`.  File contents are modelled as the byte lists the
source appends to them; the in-memory adaptive radix tree is modelled as an
association list with the same Search/Insert/Delete/Size/ForEach interface.
-/

namespace Bitcask

instance {ε α : Type} [DecidableEq ε] [DecidableEq α] : DecidableEq (Except ε α)
  | .error e, .error e' =>
    if h : e = e' then .isTrue (by rw [h]) else .isFalse (by simp [h])
  | .error _, .ok _ => .isFalse (by simp)
  | .ok _, .error _ => .isFalse (by simp)
  | .ok a, .ok a' =>
    if h : a = a' then .isTrue (by rw [h]) else .isFalse (by simp [h])

/-! ## Big-endian byte encoding (encoding/binary, BigEndian) -/

/-- Big-endian encoding of `v` into exactly `w` bytes; keeps the low `8*w`
bits of `v`, exactly as Go's `PutUint32`/`PutUint64` write `uint32(v)` /
`uint64(v)`. -/
def beBytes : Nat → Nat → List Nat
  | 0, _ => []
  | w + 1, v => beBytes w (v / 256) ++ [v % 256]

/-- Big-endian decoding of a byte list (Go `binary.BigEndian.Uint32`/`Uint64`). -/
def beDecode (l : List Nat) : Nat := l.foldl (fun a b => a * 256 + b) 0

theorem beBytes_length (w v : Nat) : (beBytes w v).length = w := by
  induction w generalizing v with
  | zero => rfl
  | succ w ih => simp [beBytes, ih]

theorem beBytes_bytes_lt {w v : Nat} : ∀ b ∈ beBytes w v, b < 256 := by
  induction w generalizing v with
  | zero => simp [beBytes]
  | succ w ih =>
    intro b hb
    simp only [beBytes, List.mem_append, List.mem_singleton] at hb
    rcases hb with h | h
    · exact ih _ h
    · subst h; exact Nat.mod_lt _ (by norm_num)

theorem beDecode_snoc (l : List Nat) (b : Nat) :
    beDecode (l ++ [b]) = beDecode l * 256 + b := by
  simp [beDecode, List.foldl_append]

theorem beDecode_beBytes (w v : Nat) : beDecode (beBytes w v) = v % 256 ^ w := by
  induction w generalizing v with
  | zero => simp [beBytes, beDecode, Nat.mod_one]
  | succ w ih =>
    rw [beBytes, beDecode_snoc, ih, pow_succ, Nat.mul_comm (256 ^ w) 256,
      Nat.mod_mul]
    ring

theorem beDecode_lt {l : List Nat} (hb : ∀ b ∈ l, b < 256) :
    beDecode l < 256 ^ l.length := by
  induction l using List.reverseRecOn with
  | nil => simp [beDecode]
  | append_singleton l b ih =>
    rw [beDecode_snoc]
    have hb' : b < 256 := hb b (by simp)
    have hl : beDecode l < 256 ^ l.length := ih (fun x hx => hb x (by simp [hx]))
    simp only [List.length_append, List.length_singleton, pow_succ]
    calc beDecode l * 256 + b < (beDecode l + 1) * 256 := by omega
      _ ≤ 256 ^ l.length * 256 := Nat.mul_le_mul_right _ hl

theorem beBytes_beDecode {l : List Nat} (hb : ∀ b ∈ l, b < 256) :
    beBytes l.length (beDecode l) = l := by
  induction l using List.reverseRecOn with
  | nil => rfl
  | append_singleton l b ih =>
    have hb' : b < 256 := hb b (by simp)
    simp only [List.length_append, List.length_singleton, beDecode_snoc, beBytes]
    have hdiv : (beDecode l * 256 + b) / 256 = beDecode l := by
      rw [Nat.mul_comm, Nat.mul_add_div (by norm_num), Nat.div_eq_of_lt hb']
      omega
    have hmod : (beDecode l * 256 + b) % 256 = b := by
      rw [Nat.mul_comm, Nat.mul_add_mod, Nat.mod_eq_of_lt hb']
    rw [hdiv, hmod, ih (fun x hx => hb x (by simp [hx]))]

/-! ## CRC-32 (IEEE), hash/crc32 ChecksumIEEE -/

/-- One bit step of the reflected CRC-32 computation with the IEEE
polynomial 0xEDB88320. -/
def crc32Step (c : Nat) : Nat :=
  if c % 2 = 1 then (c / 2) ^^^ 0xEDB88320 else c / 2

/-- Process one input byte of the CRC-32 computation. -/
def crc32Byte (c b : Nat) : Nat :=
  crc32Step (crc32Step (crc32Step (crc32Step
    (crc32Step (crc32Step (crc32Step (crc32Step (c ^^^ b % 256))))))))

/-- CRC-32 (IEEE) of a byte string, as Go's `crc32.ChecksumIEEE` computes it
over the value bytes. -/
def crc32 (data : List Nat) : Nat :=
  (data.foldl crc32Byte 0xFFFFFFFF) ^^^ 0xFFFFFFFF

theorem crc32Step_lt {c : Nat} (h : c < 2 ^ 32) : crc32Step c < 2 ^ 32 := by
  unfold crc32Step
  split
  · exact Nat.xor_lt_two_pow (by omega) (by norm_num)
  · omega

theorem crc32Byte_lt {c : Nat} (h : c < 2 ^ 32) (b : Nat) :
    crc32Byte c b < 2 ^ 32 := by
  have h0 : c ^^^ b % 256 < 2 ^ 32 :=
    Nat.xor_lt_two_pow h (lt_trans (Nat.mod_lt _ (by norm_num)) (by norm_num))
  unfold crc32Byte
  exact crc32Step_lt (crc32Step_lt (crc32Step_lt (crc32Step_lt (crc32Step_lt
    (crc32Step_lt (crc32Step_lt (crc32Step_lt h0)))))))

theorem crc32_lt (data : List Nat) : crc32 data < 2 ^ 32 := by
  have : ∀ l c, c < 2 ^ 32 → List.foldl crc32Byte c l < 2 ^ 32 := by
    intro l
    induction l with
    | nil => intro c hc; simpa using hc
    | cons b rest ih => intro c hc; exact ih _ (crc32Byte_lt hc b)
  exact Nat.xor_lt_two_pow (this data 0xFFFFFFFF (by norm_num)) (by norm_num)

/-! ## Log record and its framing (internal/data codec.go, part_000)

`internal.Entry` and `internal.NewEntry` themselves are not under `src/`
(only their uses are); the `Entry` structure below is reconstructed from the
fields the decoder in `src/unnamed/part_000` assigns (`Key`, `Value`,
`Checksum`; the `Offset` field is write-side bookkeeping returned separately
by `datafile.Write` and is not part of the frame). -/

structure Entry where
  key : List Nat
  value : List Nat
  checksum : Nat
  deriving DecidableEq, Repr

/-- Modelled from the spec: `internal.NewEntry` is not under `src/`; per
spec sections 3 and 4.1 the record checksum is the CRC-32 (IEEE) of the
value bytes only. -/
def newEntry (k v : List Nat) : Entry :=
  { key := k, value := v, checksum := crc32 v }

/-- Frame length reported by the encoder:
`int64(keySize + valueSize + len(key) + len(value) + checksumSize)`. -/
def encLen (e : Entry) : Nat := 4 + 8 + e.key.length + e.value.length + 4

/-- Byte stream produced by `encoder.encode`: big-endian
`uint32(len key)`, `uint64(len value)`, key bytes, value bytes, big-endian
`uint32` checksum, flushed as one frame. -/
def encodeEntry (e : Entry) : List Nat :=
  beBytes 4 e.key.length ++ beBytes 8 e.value.length ++
    e.key ++ e.value ++ beBytes 4 e.checksum

theorem encodeEntry_length (e : Entry) : (encodeEntry e).length = encLen e := by
  simp [encodeEntry, encLen, beBytes_length]
  omega

/-- Entries representable by the Go source: the key fits `uint32` length
truncation, the value length fits `uint64`, the checksum is a `uint32`. -/
def WFEntry (e : Entry) : Prop :=
  e.key.length < 2 ^ 32 ∧ e.value.length < 2 ^ 64 ∧ e.checksum < 2 ^ 32

/-- Errors surfaced by the embedded operations. -/
inductive BErr where
  | keyNotFound
  | keyTooLarge
  | valueTooLarge
  | checksumFailed
  | readonlyDatafile
  | readError
  | eofErr
  | unexpectedEOF
  | indexCorruption
  | decodeError
  | nilDatafile
  | maxConcurrencyLowerEqZero
  deriving DecidableEq, Repr

/-- Body split shared by both decoders (`decodeWithoutPrefix`): `buf` is the
key/value/checksum payload and `valueOffset` the position where the value
starts.  Go slices out `buf[:valueOffset]`, `buf[valueOffset:len(buf)-4]`
and the trailing four checksum bytes (the list operations here are total
where the Go slicing would panic on a malformed split). -/
def decodeWithoutPrefix (buf : List Nat) (valueOffset : Nat) : Entry :=
  { key := buf.take valueOffset
    value := (buf.take (buf.length - 4)).drop valueOffset
    checksum := beDecode (buf.drop (buf.length - 4)) }

/-- Streaming decode of one frame from the head of `l`
(`decoder.decode` in `src/unnamed/part_000`): read the 12-byte size prefix
(`io.ReadFull` reports EOF on an empty stream and unexpected EOF on a short
prefix), then the key/value/checksum payload in one read (a short payload is
unexpected EOF after `translateError`); returns the entry and the total
frame length consumed. -/
def decodeStream (l : List Nat) : Except BErr (Entry × Nat) :=
  if l.length = 0 then .error .eofErr
  else if l.length < 12 then .error .unexpectedEOF
  else if (l.drop 12).length < beDecode (l.take 4) + beDecode ((l.take 12).drop 4) + 4
  then .error .unexpectedEOF
  else .ok (decodeWithoutPrefix
      ((l.drop 12).take (beDecode (l.take 4) + beDecode ((l.take 12).drop 4) + 4))
      (beDecode (l.take 4)),
    4 + 8 + beDecode (l.take 4) + beDecode ((l.take 12).drop 4) + 4)

/-- Streaming decode of one frame as `Decoder.Decode` in
`internal/codec/codec.go` performs it.  Identical framing, except that it
passes `actualValueSize` — not `actualKeySize` — to `DecodeWithoutPrefix`,
so the payload is split at the value length. -/
def codecDecodeStream (l : List Nat) : Except BErr (Entry × Nat) :=
  if l.length = 0 then .error .eofErr
  else if l.length < 12 then .error .unexpectedEOF
  else if (l.drop 12).length < beDecode (l.take 4) + beDecode ((l.take 12).drop 4) + 4
  then .error .unexpectedEOF
  else .ok (decodeWithoutPrefix
      ((l.drop 12).take (beDecode (l.take 4) + beDecode ((l.take 12).drop 4) + 4))
      (beDecode ((l.take 12).drop 4)),
    4 + 8 + beDecode (l.take 4) + beDecode ((l.take 12).drop 4) + 4)

theorem take_append_of_length {α : Type} (a b : List α) : (a ++ b).take a.length = a :=
  List.take_left a b

theorem drop_append_of_length {α : Type} (a b : List α) : (a ++ b).drop a.length = b :=
  List.drop_left a b

/-- Decoding the frame emitted for a representable entry (optionally followed
by more stream bytes) recovers the entry and consumes exactly the frame. -/
theorem decodeStream_encodeEntry {e : Entry} (hwf : WFEntry e) (rest : List Nat) :
    decodeStream (encodeEntry e ++ rest) = .ok (e, encLen e) := by
  obtain ⟨hk, hv, hc⟩ := hwf
  have hlen : (encodeEntry e).length = encLen e := encodeEntry_length e
  have hlen16 : 16 ≤ (encodeEntry e).length := by rw [hlen]; unfold encLen; omega
  have hlentot : 16 ≤ (encodeEntry e ++ rest).length := by
    rw [List.length_append]; omega
  -- the 12-byte prefix
  have htake4 : (encodeEntry e ++ rest).take 4 = beBytes 4 e.key.length := by
    rw [encodeEntry, List.append_assoc, List.append_assoc, List.append_assoc,
      List.append_assoc]
    rw [show (4 : Nat) = (beBytes 4 e.key.length).length from (beBytes_length 4 _).symm]
    exact List.take_left _ _
  have htake12 : ((encodeEntry e ++ rest).take 12).drop 4 = beBytes 8 e.value.length := by
    have h12 : (encodeEntry e ++ rest).take 12
        = beBytes 4 e.key.length ++ beBytes 8 e.value.length := by
      rw [encodeEntry, List.append_assoc, List.append_assoc, List.append_assoc]
      rw [show (12 : Nat)
          = (beBytes 4 e.key.length ++ beBytes 8 e.value.length).length by
        simp [beBytes_length]]
      rw [← List.append_assoc]
      exact List.take_left _ _
    rw [h12, show (4 : Nat) = (beBytes 4 e.key.length).length from
      (beBytes_length 4 _).symm]
    exact List.drop_left _ _
  have hbody : (encodeEntry e ++ rest).drop 12
      = e.key ++ e.value ++ beBytes 4 e.checksum ++ rest := by
    have hsplitapp : encodeEntry e ++ rest
        = (beBytes 4 e.key.length ++ beBytes 8 e.value.length) ++
          (e.key ++ e.value ++ beBytes 4 e.checksum ++ rest) := by
      simp [encodeEntry, List.append_assoc]
    rw [hsplitapp, show (12 : Nat)
        = (beBytes 4 e.key.length ++ beBytes 8 e.value.length).length by
      simp [beBytes_length]]
    exact List.drop_left _ _
  have hklen : beDecode (beBytes 4 e.key.length) = e.key.length := by
    rw [beDecode_beBytes]
    exact Nat.mod_eq_of_lt (by exact_mod_cast hk)
  have hvlen : beDecode (beBytes 8 e.value.length) = e.value.length := by
    rw [beDecode_beBytes]
    exact Nat.mod_eq_of_lt (by exact_mod_cast hv)
  unfold decodeStream
  rw [if_neg (by omega), if_neg (by omega), htake4, htake12, hbody, hklen, hvlen]
  have hbodylen : (e.key ++ e.value ++ beBytes 4 e.checksum ++ rest).length
      = e.key.length + e.value.length + 4 + rest.length := by
    simp [beBytes_length]; omega
  rw [if_neg (by omega)]
  have hpayload : (e.key ++ e.value ++ beBytes 4 e.checksum ++ rest).take
      (e.key.length + e.value.length + 4)
      = e.key ++ e.value ++ beBytes 4 e.checksum := by
    rw [show e.key.length + e.value.length + 4
        = (e.key ++ e.value ++ beBytes 4 e.checksum).length by
      simp [beBytes_length]; omega]
    exact List.take_left _ _
  rw [hpayload]
  have hsplit : decodeWithoutPrefix (e.key ++ e.value ++ beBytes 4 e.checksum)
      e.key.length = e := by
    unfold decodeWithoutPrefix
    have hlenp : (e.key ++ e.value ++ beBytes 4 e.checksum).length
        = e.key.length + e.value.length + 4 := by simp [beBytes_length]; omega
    have h1 : (e.key ++ e.value ++ beBytes 4 e.checksum).take e.key.length
        = e.key := by
      rw [List.append_assoc]
      exact List.take_left _ _
    have h2 : (e.key ++ e.value ++ beBytes 4 e.checksum).take
        (e.key.length + e.value.length) = e.key ++ e.value := by
      rw [show e.key.length + e.value.length = (e.key ++ e.value).length by simp]
      exact List.take_left _ _
    have h3 : (e.key ++ e.value ++ beBytes 4 e.checksum).drop
        (e.key.length + e.value.length) = beBytes 4 e.checksum := by
      rw [show e.key.length + e.value.length = (e.key ++ e.value).length by simp]
      exact List.drop_left _ _
    rw [hlenp]
    have h4 : e.key.length + e.value.length + 4 - 4
        = e.key.length + e.value.length := by omega
    rw [h4, h1, h2, h3]
    have h5 : (e.key ++ e.value).drop e.key.length = e.value :=
      List.drop_left _ _
    rw [h5, beDecode_beBytes, Nat.mod_eq_of_lt (by exact_mod_cast hc)]
  rw [hsplit]
  unfold encLen
  norm_num

/-- A successful stream decode consumes at least one whole frame header and
no more than the stream. -/
theorem decodeStream_consumed {l : List Nat} {e : Entry} {n : Nat}
    (h : decodeStream l = .ok (e, n)) : 16 ≤ n ∧ n ≤ l.length := by
  unfold decodeStream at h
  split at h
  · exact absurd h (by simp)
  split at h
  · exact absurd h (by simp)
  split at h
  · exact absurd h (by simp)
  · rename_i h0 h12 hbody
    simp only [Except.ok.injEq, Prod.mk.injEq] at h
    obtain ⟨-, hn⟩ := h
    have hdl : (l.drop 12).length = l.length - 12 := List.length_drop 12 l
    omega

/-! ## Association-list maps

One generic keyed map models both the adaptive radix tree
(`art.Tree`: Search/Insert/Delete/Size/ForEach) used as the key index and
the Go map `map[int]*data.Datafile` of sealed segments.  Insert replaces an
existing binding in place, so maps built from the empty map bind each key at
most once. -/

def alookup {κ α : Type} [DecidableEq κ] : List (κ × α) → κ → Option α
  | [], _ => none
  | (k', v) :: rest, k => if k' = k then some v else alookup rest k

def ainsert {κ α : Type} [DecidableEq κ] : List (κ × α) → κ → α → List (κ × α)
  | [], k, v => [(k, v)]
  | (k', v') :: rest, k, v =>
    if k' = k then (k, v) :: rest else (k', v') :: ainsert rest k v

def aerase {κ α : Type} [DecidableEq κ] (m : List (κ × α)) (k : κ) : List (κ × α) :=
  m.filter (fun p => p.1 ≠ k)

theorem alookup_ainsert_self {κ α : Type} [DecidableEq κ]
    (m : List (κ × α)) (k : κ) (v : α) : alookup (ainsert m k v) k = some v := by
  induction m with
  | nil => simp [ainsert, alookup]
  | cons p rest ih =>
    obtain ⟨k', v'⟩ := p
    by_cases h : k' = k
    · simp [ainsert, h, alookup]
    · simp [ainsert, h, alookup, ih]

theorem alookup_ainsert_ne {κ α : Type} [DecidableEq κ]
    (m : List (κ × α)) {k k₀ : κ} (v : α) (hne : k ≠ k₀) :
    alookup (ainsert m k v) k₀ = alookup m k₀ := by
  induction m with
  | nil => simp [ainsert, alookup, hne]
  | cons p rest ih =>
    obtain ⟨k', v'⟩ := p
    by_cases h : k' = k
    · subst h; simp [ainsert, alookup, hne]
    · simp [ainsert, h, alookup, ih]

theorem alookup_aerase_self {κ α : Type} [DecidableEq κ]
    (m : List (κ × α)) (k : κ) : alookup (aerase m k) k = none := by
  induction m with
  | nil => rfl
  | cons p rest ih =>
    obtain ⟨k', v'⟩ := p
    simp only [aerase, List.filter_cons, ne_eq, decide_not] at ih ⊢
    by_cases h : k' = k
    · simpa [h] using ih
    · simpa [h, alookup] using ih

theorem alookup_aerase_ne {κ α : Type} [DecidableEq κ]
    (m : List (κ × α)) {k k₀ : κ} (hne : k ≠ k₀) :
    alookup (aerase m k) k₀ = alookup m k₀ := by
  induction m with
  | nil => rfl
  | cons p rest ih =>
    obtain ⟨k', v'⟩ := p
    simp only [aerase, List.filter_cons, ne_eq, decide_not] at ih ⊢
    by_cases h : k' = k
    · subst h
      simp [alookup, hne, ih]
    · by_cases h0 : k' = k₀
      · simp [h, h0, alookup, ih, Ne.symm hne]
      · simp [h, h0, alookup, ih]

/-! ## Configuration (options.go; the persisted config struct) -/

/-- Runtime configuration.  Sizes are Go `int`s; `sync` appears on the
persisted config used by `Put`; `maxConcurrency` is the optional memory-pool
concurrency set by `WithMemPool`. -/
structure Config where
  maxDatafileSize : Int
  maxKeySize : Int
  maxValueSize : Int
  sync : Bool
  maxConcurrency : Option Int
  deriving DecidableEq, Repr

/-- Defaults from options.go: 1 MiB datafiles, 64-byte keys, 64 KiB values. -/
def defaultConfig : Config :=
  { maxDatafileSize := 1 <<< 20, maxKeySize := 64, maxValueSize := 1 <<< 16,
    sync := false, maxConcurrency := none }

/-- The recognized option constructors (`WithXXX` in options.go), reified so
an option list can be stored on the database and replayed by `Merge`. -/
inductive OptionV where
  | withMaxDatafileSize (size : Int)
  | withMaxKeySize (size : Int)
  | withMaxValueSize (size : Int)
  | withMemPool (maxConcurrency maxTotalPoolSize : Int)
  deriving DecidableEq, Repr

/-- Applying one option function to the config (options.go).  `WithMemPool`
rejects a non-positive `maxConcurrency` with `ErrMaxConcurrencyLowerEqZero`
and stores only `maxConcurrency` (the pool size parameter is not kept on the
config). -/
def applyOption (cfg : Config) : OptionV → Except BErr Config
  | .withMaxDatafileSize size => .ok { cfg with maxDatafileSize := size }
  | .withMaxKeySize size => .ok { cfg with maxKeySize := size }
  | .withMaxValueSize size => .ok { cfg with maxValueSize := size }
  | .withMemPool maxConcurrency _ =>
    if maxConcurrency ≤ 0 then .error .maxConcurrencyLowerEqZero
    else .ok { cfg with maxConcurrency := some maxConcurrency }

/-- The option-application loop of `Open`: options are applied in order and
the first error aborts the open. -/
def applyOptions (cfg : Config) : List OptionV → Except BErr Config
  | [] => .ok cfg
  | opt :: rest =>
    match applyOption cfg opt with
    | .error e => .error e
    | .ok cfg' => applyOptions cfg' rest

/-! ## Datafile (src/unnamed/part_000, package data) -/

/-- One log segment: its id, the bytes on disk, and whether it was opened
read-only (`w == nil`, i.e. a sealed handle).  `Size` is the byte length of
the content (the tail offset). -/
structure Datafile where
  id : Nat
  content : List Nat
  readonly : Bool
  deriving DecidableEq, Repr

/-- The write path `datafile.Write`: writing to a sealed handle fails with
`ErrReadonly`; otherwise the frame is appended at the current tail and
(pre-write offset, frame length) is returned. -/
def dfWrite (df : Datafile) (e : Entry) : Except BErr (Nat × Nat × Datafile) :=
  if df.readonly then .error .readonlyDatafile
  else .ok (df.content.length, encLen e,
    { df with content := df.content ++ encodeEntry e })

/-- The random-access read path `datafile.ReadAt`: read exactly `size` bytes
at `offset` (a short read is `ErrReadError`; the sealed-handle memory map
and the active file handle return the same bytes, so they are not
distinguished here), then split them with `decodeWithoutPrefix` at the key
size parsed from the prefix. -/
def dfReadAt (df : Datafile) (offset size : Nat) : Except BErr Entry :=
  if ((df.content.drop offset).take size).length ≠ size then .error .readError
  else .ok (decodeWithoutPrefix (((df.content.drop offset).take size).drop 12)
    (beDecode (((df.content.drop offset).take size).take 4)))

/-! ## Key index entries and the database state (bitcask.go) -/

/-- An index entry `internal.Item`: segment id, byte offset of the record and
its framed length.  `FileID` is a Go `int`, `Offset`/`Size` are `int64`;
only non-negative values are ever stored, so they are modelled as `Nat`. -/
structure Item where
  fileID : Nat
  offset : Nat
  size : Nat
  deriving DecidableEq, Repr

/-- The key index: `art.Tree` with byte-string keys and `Item` values. -/
abbrev Trie := List (List Nat × Item)

/-- The open database (struct `Bitcask`): configuration, the retained option
list, the active datafile `curr`, the sealed datafile map and the key
index. -/
structure DB where
  config : Config
  options : List OptionV
  curr : Datafile
  datafiles : List (Nat × Datafile)
  trie : Trie
  deriving DecidableEq, Repr

/-- A freshly opened database on an empty directory: one empty active
segment with id 0, no sealed segments, an empty index. -/
def openEmpty (cfg : Config) (opts : List OptionV) : DB :=
  { config := cfg, options := opts,
    curr := { id := 0, content := [], readonly := false },
    datafiles := [], trie := [] }

/-- Segment-handle resolution in `Get`: the active datafile when the item's
id matches, otherwise the sealed map (where Go would dereference a nil
pointer for an unknown id, the model returns a distinguished error). -/
def resolveDF (b : DB) (fid : Nat) : Option Datafile :=
  if fid = b.curr.id then some b.curr else alookup b.datafiles fid

/-- The read of one located record shared by `Get`: resolve the handle,
`ReadAt` the stored range, re-compute the CRC-32 of the value read and
compare it with the stored checksum. -/
def getItem (b : DB) (it : Item) : Except BErr (List Nat) :=
  match resolveDF b it.fileID with
  | none => .error .nilDatafile
  | some df =>
    match dfReadAt df it.offset it.size with
    | .error e => .error e
    | .ok e => if crc32 e.value = e.checksum then .ok e.value
      else .error .checksumFailed

/-- Public `Get`: index search under the read lock, then the record read. -/
def Get (b : DB) (key : List Nat) : Except BErr (List Nat) :=
  match alookup b.trie key with
  | none => .error .keyNotFound
  | some it => getItem b it

/-- Public `Has`: index search only, no I/O. -/
def Has (b : DB) (key : List Nat) : Bool :=
  (alookup b.trie key).isSome

/-- Public `Len`: the index size (number of keys). -/
def Len (b : DB) : Nat := b.trie.length

/-- Rotation inside the internal `put`: close the active segment, reopen it
read-only into the map, and open a fresh active segment with the next id. -/
def rotate (b : DB) : DB :=
  { b with
    datafiles := ainsert b.datafiles b.curr.id
      { id := b.curr.id, content := b.curr.content, readonly := true },
    curr := { id := b.curr.id + 1, content := [], readonly := false } }

/-- The rotation guard at the top of the internal `put`: rotate exactly when
the active segment's size has reached `maxDatafileSize`. -/
def rotateIfFull (b : DB) : DB :=
  if (b.curr.content.length : Int) ≥ b.config.maxDatafileSize then rotate b else b

/-- The internal `put`: rotate first when the active segment is full, then
write the new entry to the active segment, returning (offset, length,
updated state). -/
def bput (b : DB) (key value : List Nat) : Except BErr (Nat × Nat × DB) :=
  match dfWrite (rotateIfFull b).curr (newEntry key value) with
  | .error e => .error e
  | .ok (offset, n, df) => .ok (offset, n, { rotateIfFull b with curr := df })

/-- Public `Put`: enforce the configured key/value size limits before any
write; on success insert `{FileID: curr id after the write, Offset, Size}`
into the index.  The pair returned models Go's mutated receiver plus error
value: on error the state is the unchanged receiver. -/
def Put (b : DB) (key value : List Nat) : DB × Option BErr :=
  if (key.length : Int) > b.config.maxKeySize then (b, some .keyTooLarge)
  else if (value.length : Int) > b.config.maxValueSize then (b, some .valueTooLarge)
  else
    match bput b key value with
    | .error e => (b, some e)
    | .ok (offset, n, b') =>
      ({ b' with trie := ainsert b'.trie key ⟨b'.curr.id, offset, n⟩ }, none)

/-- Public `Delete`: write a tombstone record (empty value) through the same
internal `put` without size enforcement, then erase the key from the
index. -/
def Delete (b : DB) (key : List Nat) : DB × Option BErr :=
  match bput b key [] with
  | .error e => (b, some e)
  | .ok (_, _, b') => ({ b' with trie := aerase b'.trie key }, none)

/-! ## Iteration: Fold and Scan (bitcask.go) -/

/-- The `trie.ForEach` traversal pattern shared by `Fold`: invoke the
visitor on each key in order, stop as soon as it returns an error.  Returns
the keys the visitor was invoked on and the first error it returned. -/
def forEachStop {α : Type} : Trie → (List Nat → Option α) → List (List Nat) × Option α
  | [], _ => ([], none)
  | (k, _) :: rest, f =>
    match f k with
    | some e => ([k], some e)
    | none => ((forEachStop rest f).1.cons k, (forEachStop rest f).2)

/-- Public `Fold`: traverses the whole index with the stop-on-error
callback, but the callback checks the visitor's error in an `if`-scoped
local variable, so the error never reaches Fold's return value and Fold
returns nil unconditionally. -/
def Fold {α : Type} (b : DB) (f : List Nat → Option α) : Option α :=
  (forEachStop b.trie f).2 |> fun _ => none

/-- Public `Scan`: `trie.ForEachPrefix` over keys beginning with `pfx`,
skipping the zero-length root key; the closure assigns the visitor's error
to Scan's named result, so the first error stops the walk and is
returned. -/
def scanLoop {α : Type} : Trie → List Nat → (List Nat → Option α) → Option α
  | [], _, _ => none
  | (k, _) :: rest, pfx, f =>
    if pfx.isPrefixOf k then
      if k.length = 0 then scanLoop rest pfx f
      else
        match f k with
        | some e => some e
        | none => scanLoop rest pfx f
    else scanLoop rest pfx f

def Scan {α : Type} (b : DB) (pfx : List Nat) (f : List Nat → Option α) : Option α :=
  scanLoop b.trie pfx f

/-! ## Operation sequences -/

inductive Op where
  | put (key value : List Nat)
  | delete (key : List Nat)
  deriving DecidableEq, Repr

def opKey : Op → List Nat
  | .put k _ => k
  | .delete k => k

def applyOp (b : DB) : Op → DB
  | .put k v => (Put b k v).1
  | .delete k => (Delete b k).1

def applyOps (b : DB) : List Op → DB
  | [] => b
  | op :: rest => applyOps (applyOp b op) rest

/-- Structural well-formedness of an open handle: every sealed segment id is
at most the active id (rotation only grows the active id past the sealed
ones, and reopen seals only ids up to the maximum). -/
def DfIdsLe (b : DB) : Prop := ∀ p ∈ b.datafiles, p.1 ≤ b.curr.id

/-! ## Recovery (reopen in bitcask.go) -/

/-- One decoded entry of the replay loop in `reopen`: an empty value is a
tombstone and erases the key, anything else inserts
`{FileID, pre-entry offset, entry length}`. -/
def replayStep (t : Trie) (fid : Nat) (e : Entry) (off n : Nat) : Trie :=
  if e.value.length = 0 then aerase t e.key
  else ainsert t e.key ⟨fid, off, n⟩

/-- The per-segment replay loop of `reopen`: sequentially decode entries,
apply `replayStep` and advance the offset; `io.EOF` ends the segment
cleanly, any other decode error aborts the reopen. -/
def replayLoop (t : Trie) (fid : Nat) (l : List Nat) (off : Nat) : Except BErr Trie :=
  match h : decodeStream l with
  | .error .eofErr => .ok t
  | .error e => .error e
  | .ok (e, n) => replayLoop (replayStep t fid e off n) fid (l.drop n) (off + n)
termination_by l.length
decreasing_by
  have hc := decodeStream_consumed h
  simp only [List.length_drop]
  omega

/-- Replay of all segments.  The source iterates the Go map
`for i, df := range datafiles`, whose enumeration order is unspecified; the
enumeration is therefore passed explicitly as the `segs` list and
instantiated with the ascending id order (one admissible enumeration) by the
callers below.  `ids.getD i 0` mirrors the source's `ids[i]`, which indexes
the sorted id slice by the map key and panics in Go when `i ≥ len(ids)`;
for the contiguous ids this store produces, `ids[i] = i`. -/
def replaySegs (t : Trie) (ids : List Nat) : List (Nat × List Nat) → Except BErr Trie
  | [] => .ok t
  | (i, content) :: rest =>
    match replayLoop t (ids.getD i 0) content 0 with
    | .error e => .error e
    | .ok t' => replaySegs t' ids rest

/-- Modelled from the spec: `internal/index.ReadFromFile` is not under
`src/` (only its callers are).  Per spec section 4.2, a missing index file
reports found=false; during read each key length must be at most the
configured maximum key size and each Size at most the frame overhead (16
bytes) plus the maximum key and value sizes, a violation being an
index-corruption error that aborts the load. -/
def readIndexValid (cfg : Config) (idx : Option Trie) : Except BErr (Trie × Bool) :=
  match idx with
  | none => .ok ([], false)
  | some t =>
    if t.all (fun p => decide ((p.1.length : Int) ≤ cfg.maxKeySize) &&
        decide ((p.2.size : Int) ≤ 16 + cfg.maxKeySize + cfg.maxValueSize))
    then .ok (t, true)
    else .error .indexCorruption

/-- The `reopen` procedure: enumerate segment files ascending (`*.data`
glob, zero-padded names), open every id as a sealed handle, load the
persisted index when present and valid, otherwise replay every segment;
finally open the maximum id (0 when no segments exist) as the active
segment with its on-disk size as tail offset. -/
def reopenDB (cfg : Config) (opts : List OptionV) (segs : List (Nat × List Nat))
    (idx : Option Trie) : Except BErr DB :=
  match readIndexValid cfg idx with
  | .error e => .error e
  | .ok (t0, found) =>
    match (if found then .ok t0
      else replaySegs t0 (segs.map Prod.fst) segs : Except BErr Trie) with
    | .error e => .error e
    | .ok t =>
      .ok { config := cfg, options := opts,
            curr := ⟨(segs.map Prod.fst).getLastD 0,
              (alookup segs ((segs.map Prod.fst).getLastD 0)).getD [], false⟩,
            datafiles := segs.map (fun p => (p.1, (⟨p.1, p.2, true⟩ : Datafile))),
            trie := t }

/-- The `*.data` files on disk for an open handle: every sealed segment plus
the active one (which supersedes a sealed handle of the same id, both being
views of the same file), listed ascending by id for handles whose sealed ids
ascend below the active id. -/
def segsOnDisk (b : DB) : List (Nat × List Nat) :=
  (ainsert b.datafiles b.curr.id b.curr).map (fun p => (p.1, p.2.content))

/-! ## Merge (bitcask.go) -/

/-- The Fold callback of `Merge` threaded over the index: Get each live key
from the original database and Put it into the merged one; the walk stops at
the first error, which `Fold` then discards. -/
def mergeFoldLoop (b : DB) : DB → Trie → DB
  | mdb, [] => mdb
  | mdb, (k, _) :: rest =>
    match Get b k with
    | .error _ => mdb
    | .ok v =>
      match Put mdb k v with
      | (mdb', none) => mergeFoldLoop b mdb' rest
      | (mdb', some _) => mdb'

/-- The `Merge` procedure: open a fresh database in a temporary directory
with the retained option list applied to a default config (the temp
directory has no persisted config), rewrite the live keys into it via
Fold/Get/Put, close both databases (the merged close persists the merged
index), replace the original directory's files with the merged ones, and
reopen in place with the original in-memory config — the moved index file is
present and, when it passes validation, becomes the index without replay. -/
def Merge (b : DB) : Except BErr DB :=
  match applyOptions defaultConfig b.options with
  | .error e => .error e
  | .ok mcfg =>
    reopenDB b.config b.options
      (segsOnDisk (mergeFoldLoop b (openEmpty mcfg b.options) b.trie))
      (some (mergeFoldLoop b (openEmpty mcfg b.options) b.trie).trie)

/-! ## Segment histories (proof-side view of the log)

A run of the store is abstracted by the list of entries appended to each
segment; these definitions re-express the on-disk bytes and the replay

result in terms of that history for the recovery-equivalence proof. -/

/-- Concatenated frames of a list of entries: the bytes of one segment. -/
def encJoin (es : List Entry) : List Nat := (es.map encodeEntry).join

/-- Replay of one segment's entry list from a given offset (what
`replayLoop` computes on its bytes). -/
def replayFoldSeg (t : Trie) (fid : Nat) : List Entry → Nat → Trie
  | [], _ => t
  | e :: rest, off =>
    replayFoldSeg (replayStep t fid e off (encLen e)) fid rest (off + encLen e)

/-- Replay of a list of segments numbered consecutively from `i`. -/
def replayModelAux (t : Trie) (i : Nat) : List (List Entry) → Trie
  | [] => t
  | es :: rest => replayModelAux (replayFoldSeg t i es 0) (i + 1) rest

/-- The on-disk segment list of a history, numbered from `i`. -/
def enumContent (i : Nat) : List (List Entry) → List (Nat × List Nat)
  | [] => []
  | es :: rest => (i, encJoin es) :: enumContent (i + 1) rest

/-- The sealed-handle map of a history, numbered from `i`. -/
def enumSegs (i : Nat) : List (List Entry) → List (Nat × Datafile)
  | [] => []
  | es :: rest => (i, (⟨i, encJoin es, true⟩ : Datafile)) :: enumSegs (i + 1) rest

/-- Operations representable by the Go source whose live effect recovery can
replay exactly: keys fit the `uint32` length prefix, values the `uint64`
one, and no `Put` stores an empty value (an empty value is indistinguishable
from a tombstone on replay). -/
def opWF : Op → Prop
  | .put k v => k.length < 2 ^ 32 ∧ v.length < 2 ^ 64 ∧ v ≠ []
  | .delete k => k.length < 2 ^ 32

instance opWF_decidable : DecidablePred opWF := fun op =>
  match op with
  | .put k v => inferInstanceAs (Decidable (_ ∧ _ ∧ _))
  | .delete k => inferInstanceAs (Decidable (_ < _))

/-- The state invariant tying an open handle to its segment history: `done`
are the sealed segments' histories, `cur` the active segment's. -/
def InvSegs (b : DB) (done : List (List Entry)) (cur : List Entry) : Prop :=
  (∀ es ∈ done ++ [cur], ∀ e ∈ es, WFEntry e) ∧
  b.curr = ⟨done.length, encJoin cur, false⟩ ∧
  b.datafiles = enumSegs 0 done ∧
  b.trie = replayModelAux [] 0 (done ++ [cur])

/-! ## Integer helpers (dtypes.go; encoding/binary varints) -/

/-- Go's `uint64(x)` conversion of an `int64` (two's complement). -/
def uint64OfInt (x : Int) : Nat := (x % (2 ^ 64 : Int)).toNat

/-- The byte sequence `binary.PutUvarint` writes for `v`: little-endian
base-128 groups, high bit set on every byte but the last. -/
def uvarintBytes (v : Nat) : List Nat :=
  if h : v < 128 then [v] else (v % 128 + 128) :: uvarintBytes (v / 128)
termination_by v
decreasing_by exact Nat.div_lt_self (by omega) (by norm_num)

/-- The 10-byte buffer `PutUint`/`PutInt` store: `make([]byte,
binary.MaxVarintLen64)` filled by `PutUvarint` from the front, zero
elsewhere. -/
def putUvarintBuf (v : Nat) : List Nat :=
  uvarintBytes v ++ List.replicate (10 - (uvarintBytes v).length) 0

/-- The zigzag pre-map of `binary.PutVarint`:
`ux := uint64(x) << 1; if x < 0 { ux = ^ux }`. -/
def zigzag (x : Int) : Nat :=
  if x < 0 then 2 ^ 64 - 1 - (uint64OfInt x * 2 % 2 ^ 64)
  else uint64OfInt x * 2 % 2 ^ 64

def putVarintBuf (x : Int) : List Nat := putUvarintBuf (zigzag x)

/-- The loop of `binary.Uvarint`: accumulate 7-bit groups; a terminal byte
at index 9 greater than 1, or any terminal byte past index 9, is an overflow
reported as a negative byte count; a stream that ends inside a varint
reports 0 bytes. -/
def uvarintAux : List Nat → Nat → Nat → Nat → Nat × Int
  | [], _, _, _ => (0, 0)
  | b :: rest, x, s, i =>
    if b < 128 then
      if i > 9 ∨ (i = 9 ∧ b > 1) then (0, -(i + 1 : Int))
      else ((x ||| (b <<< s)) % 2 ^ 64, (i + 1 : Int))
    else uvarintAux rest ((x ||| ((b % 128) <<< s)) % 2 ^ 64) (s + 7) (i + 1)

def uvarint (l : List Nat) : Nat × Int := uvarintAux l 0 0 0

/-- `binary.Varint`: unsigned decode then zigzag post-map
`x := int64(ux >> 1); if ux&1 != 0 { x = ^x }`. -/
def varint (l : List Nat) : Int × Int :=
  (if (uvarint l).1 % 2 = 1 then -(((uvarint l).1 / 2 : Nat) : Int) - 1
   else (((uvarint l).1 / 2 : Nat) : Int), (uvarint l).2)

/-- `PutUint`: store the fixed 10-byte uvarint buffer under the key. -/
def PutUint (b : DB) (key : List Nat) (v : Nat) : DB × Option BErr :=
  Put b key (putUvarintBuf v)

/-- `GetUint`: fetch and decode; the decode must consume the entire stored
buffer (`n != len(buf)` is a decode error). -/
def GetUint (b : DB) (key : List Nat) : Except BErr Nat :=
  match Get b key with
  | .error e => .error e
  | .ok buf =>
    if (uvarint buf).2 ≠ (buf.length : Int) then .error .decodeError
    else .ok (uvarint buf).1

/-- `PutInt`: store the fixed 10-byte varint buffer under the key. -/
def PutInt (b : DB) (key : List Nat) (x : Int) : DB × Option BErr :=
  Put b key (putVarintBuf x)

/-- `GetInt`: fetch and decode; only a negative byte count (overflow) is a
decode error — trailing unconsumed bytes are accepted. -/
def GetInt (b : DB) (key : List Nat) : Except BErr Int :=
  match Get b key with
  | .error e => .error e
  | .ok buf =>
    if (varint buf).2 < 0 then .error .decodeError
    else .ok (varint buf).1

/-! ## Helper lemmas for the write/read protocol -/

theorem alookup_mem {κ α : Type} [DecidableEq κ] {m : List (κ × α)} {k : κ} {v : α}
    (h : alookup m k = some v) : (k, v) ∈ m := by
  induction m with
  | nil => simp [alookup] at h
  | cons p rest ih =>
    obtain ⟨k', v'⟩ := p
    simp only [alookup] at h
    split at h
    · rename_i hk
      subst hk
      injection h with h
      subst h
      exact List.mem_cons_self _ _
    · exact List.mem_cons_of_mem _ (ih h)

theorem mem_ainsert {κ α : Type} [DecidableEq κ] {m : List (κ × α)} {k : κ} {v : α}
    {p : κ × α} (h : p ∈ ainsert m k v) : p = (k, v) ∨ p ∈ m := by
  induction m with
  | nil => simpa [ainsert] using h
  | cons q rest ih =>
    obtain ⟨k', v'⟩ := q
    simp only [ainsert] at h
    split at h
    · rcases List.mem_cons.mp h with h' | h'
      · exact Or.inl h'
      · exact Or.inr (List.mem_cons_of_mem _ h')
    · rcases List.mem_cons.mp h with h' | h'
      · exact Or.inr (by rw [h']; exact List.mem_cons_self _ _)
      · rcases ih h' with h'' | h''
        · exact Or.inl h''
        · exact Or.inr (List.mem_cons_of_mem _ h'')

/-- Splitting the encoded frame without its prefix at the parsed key size
recovers the entry. -/
theorem decodeWithoutPrefix_encodeEntry {e : Entry} (hwf : WFEntry e) :
    decodeWithoutPrefix ((encodeEntry e).drop 12)
      (beDecode ((encodeEntry e).take 4)) = e := by
  obtain ⟨hk, hv, hc⟩ := hwf
  have htake4 : (encodeEntry e).take 4 = beBytes 4 e.key.length := by
    have hsplitapp : encodeEntry e = beBytes 4 e.key.length ++
        (beBytes 8 e.value.length ++ e.key ++ e.value ++ beBytes 4 e.checksum) := by
      simp [encodeEntry, List.append_assoc]
    rw [hsplitapp, show (4 : Nat) = (beBytes 4 e.key.length).length from
      (beBytes_length 4 _).symm]
    exact List.take_left _ _
  have hbody : (encodeEntry e).drop 12
      = e.key ++ e.value ++ beBytes 4 e.checksum := by
    have hsplitapp : encodeEntry e
        = (beBytes 4 e.key.length ++ beBytes 8 e.value.length) ++
          (e.key ++ e.value ++ beBytes 4 e.checksum) := by
      simp [encodeEntry, List.append_assoc]
    rw [hsplitapp, show (12 : Nat)
        = (beBytes 4 e.key.length ++ beBytes 8 e.value.length).length by
      simp [beBytes_length]]
    exact List.drop_left _ _
  have hklen : beDecode (beBytes 4 e.key.length) = e.key.length := by
    rw [beDecode_beBytes]
    exact Nat.mod_eq_of_lt (by exact_mod_cast hk)
  rw [htake4, hbody, hklen]
  unfold decodeWithoutPrefix
  have hlenp : (e.key ++ e.value ++ beBytes 4 e.checksum).length
      = e.key.length + e.value.length + 4 := by simp [beBytes_length]; omega
  have h1 : (e.key ++ e.value ++ beBytes 4 e.checksum).take e.key.length
      = e.key := by
    rw [List.append_assoc]
    exact List.take_left _ _
  have h2 : (e.key ++ e.value ++ beBytes 4 e.checksum).take
      (e.key.length + e.value.length) = e.key ++ e.value := by
    rw [show e.key.length + e.value.length = (e.key ++ e.value).length by simp]
    exact List.take_left _ _
  have h3 : (e.key ++ e.value ++ beBytes 4 e.checksum).drop
      (e.key.length + e.value.length) = beBytes 4 e.checksum := by
    rw [show e.key.length + e.value.length = (e.key ++ e.value).length by simp]
    exact List.drop_left _ _
  rw [hlenp, show e.key.length + e.value.length + 4 - 4
    = e.key.length + e.value.length by omega, h1, h2, h3]
  rw [List.drop_left, beDecode_beBytes, Nat.mod_eq_of_lt (by exact_mod_cast hc)]

/-- Reading back the range of a frame just appended to a datafile returns
the encoded entry. -/
theorem dfReadAt_append {e : Entry} (hwf : WFEntry e) (content : List Nat)
    (id : Nat) (ro : Bool) :
    dfReadAt ⟨id, content ++ encodeEntry e, ro⟩ content.length (encLen e) = .ok e := by
  have henc := encodeEntry_length e
  have hslice : (((content ++ encodeEntry e).drop content.length).take (encLen e))
      = encodeEntry e := by
    rw [List.drop_left, ← henc, List.take_length]
  unfold dfReadAt
  simp only [hslice]
  rw [if_neg (by rw [henc]; omega)]
  rw [decodeWithoutPrefix_encodeEntry hwf]

/-- A slice fully contained in a list is unchanged when the list grows by
appending. -/
theorem drop_take_append {α : Type} {l : List α} (ext : List α) {off size : Nat}
    (h : ((l.drop off).take size).length = size) :
    ((l ++ ext).drop off).take size = (l.drop off).take size := by
  rw [List.length_take, List.length_drop] at h
  by_cases hoff : off ≤ l.length
  · rw [List.drop_append_of_le_length hoff]
    exact List.take_append_of_le_length (by rw [List.length_drop]; omega)
  · have hz : size = 0 := by omega
    subst hz
    simp

/-- Reading a range that succeeded keeps succeeding with the same entry
after the file grows by an append. -/
theorem dfReadAt_mono {df df' : Datafile} {off size : Nat} {e : Entry}
    (h : dfReadAt df off size = .ok e) (ext : List Nat)
    (hc : df'.content = df.content ++ ext) : dfReadAt df' off size = .ok e := by
  unfold dfReadAt at h ⊢
  split at h
  · exact absurd h (by simp)
  · rename_i hlen
    have hl : ((df.content.drop off).take size).length = size := by omega
    rw [hc, drop_take_append ext hl]
    rw [if_neg (by omega)]
    exact h

/-- Reading depends only on the datafile's content. -/
theorem dfReadAt_congr {df df' : Datafile} (hc : df'.content = df.content)
    (off size : Nat) : dfReadAt df' off size = dfReadAt df off size := by
  unfold dfReadAt
  rw [hc]

/-- Shape of a successful internal put: the write went to the
possibly-rotated active segment at its tail. -/
theorem bput_ok_shape {b : DB} {k v : List Nat} {off n : Nat} {b' : DB}
    (h : bput b k v = .ok (off, n, b')) :
    (rotateIfFull b).curr.readonly = false ∧
    off = (rotateIfFull b).curr.content.length ∧ n = encLen (newEntry k v) ∧
    b' = { rotateIfFull b with curr := { (rotateIfFull b).curr with
      content := (rotateIfFull b).curr.content ++ encodeEntry (newEntry k v) } } := by
  unfold bput dfWrite at h
  by_cases hro : (rotateIfFull b).curr.readonly
  · rw [if_pos hro] at h
    exact absurd h (by simp)
  · rw [if_neg hro] at h
    simp only [Except.ok.injEq, Prod.mk.injEq] at h
    obtain ⟨h1, h2, h3⟩ := h
    exact ⟨by simpa using hro, h1.symm, h2.symm, h3.symm⟩

/-- The internal put never touches the key index. -/
theorem bput_trie {b : DB} {k v : List Nat} {off n : Nat} {b' : DB}
    (h : bput b k v = .ok (off, n, b')) : b'.trie = b.trie := by
  obtain ⟨-, -, -, rfl⟩ := bput_ok_shape h
  unfold rotateIfFull rotate
  split <;> rfl

/-- The record read does not inspect the key index. -/
theorem getItem_trie_irrel (b : DB) (t : Trie) (it : Item) :
    getItem { b with trie := t } it = getItem b it := rfl

/-- After a rotation followed by a write, every previously resolvable
segment id resolves to a handle with the content it had before. -/
theorem resolveDF_rotate_write {b : DB} (hids : DfIdsLe b) {fid : Nat}
    {df : Datafile} (hres : resolveDF b fid = some df) (X : List Nat) :
    ∃ df', resolveDF { rotate b with curr := { (rotate b).curr with
        content := (rotate b).curr.content ++ X } } fid = some df' ∧
      df'.content = df.content := by
  have hfid : fid ≤ b.curr.id := by
    unfold resolveDF at hres
    by_cases hf : fid = b.curr.id
    · omega
    · rw [if_neg hf] at hres
      exact hids _ (alookup_mem hres)
  unfold resolveDF at hres ⊢
  dsimp only [rotate]
  rw [if_neg (by omega : ¬ fid = b.curr.id + 1)]
  by_cases hf : fid = b.curr.id
  · rw [if_pos hf] at hres
    injection hres with hdf
    refine ⟨⟨b.curr.id, b.curr.content, true⟩, ?_, by rw [← hdf]⟩
    rw [hf]
    exact alookup_ainsert_self _ _ _
  · rw [if_neg hf] at hres
    exact ⟨df, by rw [alookup_ainsert_ne _ _ (fun h' => hf h'.symm)]; exact hres, rfl⟩

/-- After a write without rotation, every previously resolvable segment id
resolves to a handle whose content is the old content possibly extended by
the newly appended frame. -/
theorem resolveDF_grow {b : DB} {fid : Nat} {df : Datafile}
    (hres : resolveDF b fid = some df) (X : List Nat) :
    ∃ df', resolveDF { b with curr := { b.curr with
        content := b.curr.content ++ X } } fid = some df' ∧
      (df'.content = df.content ++ X ∨ df'.content = df.content) := by
  unfold resolveDF at hres ⊢
  dsimp only
  by_cases hf : fid = b.curr.id
  · rw [if_pos hf] at hres ⊢
    injection hres with hdf
    exact ⟨_, rfl, Or.inl (by rw [← hdf])⟩
  · rw [if_neg hf] at hres ⊢
    exact ⟨df, hres, Or.inr rfl⟩

/-- A located record that read back a value keeps reading the same value
after any successful internal put (other keys' writes only append to the
active segment or seal it unchanged). -/
theorem getItem_bput {b : DB} {it : Item} {v : List Nat}
    (hids : DfIdsLe b) (hget : getItem b it = .ok v)
    {k' v' : List Nat} {off n : Nat} {b' : DB}
    (hput : bput b k' v' = .ok (off, n, b')) :
    getItem b' it = .ok v := by
  obtain ⟨hro, -, -, rfl⟩ := bput_ok_shape hput
  unfold getItem at hget ⊢
  cases hres : resolveDF b it.fileID with
  | none =>
    rw [hres] at hget
    exact absurd hget (by simp)
  | some df =>
    rw [hres] at hget
    dsimp only at hget
    cases hread : dfReadAt df it.offset it.size with
    | error e0 =>
      rw [hread] at hget
      exact absurd hget (by simp)
    | ok e =>
      rw [hread] at hget
      dsimp only at hget
      have hmain : ∃ df', resolveDF { rotateIfFull b with
          curr := { (rotateIfFull b).curr with
            content := (rotateIfFull b).curr.content ++
              encodeEntry (newEntry k' v') } } it.fileID = some df' ∧
          dfReadAt df' it.offset it.size = .ok e := by
        unfold rotateIfFull
        by_cases hfull : (b.curr.content.length : Int) ≥ b.config.maxDatafileSize
        · rw [if_pos hfull]
          obtain ⟨df', h1, h2⟩ :=
            resolveDF_rotate_write hids hres (encodeEntry (newEntry k' v'))
          exact ⟨df', h1, by rw [dfReadAt_congr h2]; exact hread⟩
        · rw [if_neg hfull]
          obtain ⟨df', h1, h2⟩ := resolveDF_grow hres (encodeEntry (newEntry k' v'))
          refine ⟨df', h1, ?_⟩
          rcases h2 with h2 | h2
          · exact dfReadAt_mono hread _ h2
          · rw [dfReadAt_congr h2]
            exact hread
      obtain ⟨df', h1, h2⟩ := hmain
      rw [h1]
      dsimp only
      rw [h2]
      exact hget

/-- A value observable through `Get` stays observable, unchanged, across any
single operation on a different key. -/
theorem get_applyOp {b : DB} {k v : List Nat} (hids : DfIdsLe b)
    (hget : Get b k = .ok v) {op : Op} (hne : opKey op ≠ k) :
    Get (applyOp b op) k = .ok v := by
  unfold Get at hget
  cases hsearch : alookup b.trie k with
  | none => rw [hsearch] at hget; exact absurd hget (by simp)
  | some it =>
    rw [hsearch] at hget
    dsimp only at hget
    cases op with
    | put k' v' =>
      have hk' : k' ≠ k := hne
      dsimp only [applyOp]
      unfold Put
      split
      · unfold Get
        rw [hsearch]
        exact hget
      · split
        · unfold Get
          rw [hsearch]
          exact hget
        · cases hput : bput b k' v' with
          | error e =>
            unfold Get
            rw [hsearch]
            exact hget
          | ok r =>
            obtain ⟨off, n, b'⟩ := r
            dsimp only
            unfold Get
            dsimp only
            rw [alookup_ainsert_ne _ _ hk', bput_trie hput, hsearch]
            dsimp only
            rw [getItem_trie_irrel]
            exact getItem_bput hids hget hput
    | delete k' =>
      have hk' : k' ≠ k := hne
      dsimp only [applyOp]
      unfold Delete
      cases hput : bput b k' [] with
      | error e =>
        unfold Get
        rw [hsearch]
        exact hget
      | ok r =>
        obtain ⟨off, n, b'⟩ := r
        dsimp only
        unfold Get
        dsimp only
        rw [alookup_aerase_ne _ hk', bput_trie hput, hsearch]
        dsimp only
        rw [getItem_trie_irrel]
        exact getItem_bput hids hget hput

/-- The sealed-ids-below-active invariant survives a successful internal
put. -/
theorem dfIdsLe_bput {b : DB} (hids : DfIdsLe b) {k v : List Nat}
    {off n : Nat} {b' : DB} (h : bput b k v = .ok (off, n, b')) : DfIdsLe b' := by
  obtain ⟨-, -, -, rfl⟩ := bput_ok_shape h
  unfold rotateIfFull
  split
  · intro p hp
    dsimp only [rotate] at hp ⊢
    rcases mem_ainsert hp with h' | h'
    · rw [h']
      omega
    · have := hids p h'
      omega
  · intro p hp
    exact hids p hp

/-- The sealed-ids-below-active invariant survives every public operation. -/
theorem dfIdsLe_applyOp {b : DB} (hids : DfIdsLe b) (op : Op) :
    DfIdsLe (applyOp b op) := by
  cases op with
  | put k v =>
    dsimp only [applyOp]
    unfold Put
    split
    · exact hids
    · split
      · exact hids
      · cases hput : bput b k v with
        | error e => exact hids
        | ok r =>
          obtain ⟨off, n, b'⟩ := r
          intro p hp
          exact dfIdsLe_bput hids hput p hp
  | delete k =>
    dsimp only [applyOp]
    unfold Delete
    cases hput : bput b k [] with
    | error e => exact hids
    | ok r =>
      obtain ⟨off, n, b'⟩ := r
      intro p hp
      exact dfIdsLe_bput hids hput p hp

/-- A value observable through `Get` stays observable across any sequence of
operations that never touches its key. -/
theorem get_applyOps {b : DB} {k v : List Nat} (hids : DfIdsLe b)
    (hget : Get b k = .ok v) {ops : List Op}
    (hops : ∀ op ∈ ops, opKey op ≠ k) :
    Get (applyOps b ops) k = .ok v := by
  induction ops generalizing b with
  | nil => exact hget
  | cons op rest ih =>
    exact ih (dfIdsLe_applyOp hids op)
      (get_applyOp hids hget (hops op (List.mem_cons_self _ _)))
      (fun o ho => hops o (List.mem_cons_of_mem _ ho))

/-- A size-respecting `Put` on a writable handle succeeds and the key reads
back the stored value. -/
theorem get_after_put (b : DB) (k v : List Nat)
    (hro : b.curr.readonly = false)
    (hk : (k.length : Int) ≤ b.config.maxKeySize)
    (hv : (v.length : Int) ≤ b.config.maxValueSize)
    (hk32 : k.length < 2 ^ 32) (hv64 : v.length < 2 ^ 64) :
    (Put b k v).2 = none ∧ Get (Put b k v).1 k = .ok v := by
  have hwf : WFEntry (newEntry k v) := ⟨hk32, hv64, crc32_lt v⟩
  have hrro : (rotateIfFull b).curr.readonly = false := by
    unfold rotateIfFull
    split
    · rfl
    · exact hro
  have hput : bput b k v = .ok ((rotateIfFull b).curr.content.length,
      encLen (newEntry k v), { rotateIfFull b with
        curr := { (rotateIfFull b).curr with
          content := (rotateIfFull b).curr.content ++
            encodeEntry (newEntry k v) } }) := by
    unfold bput dfWrite
    rw [if_neg (by rw [hrro]; simp)]
  unfold Put
  rw [if_neg (by omega), if_neg (by omega), hput]
  refine ⟨rfl, ?_⟩
  unfold Get
  dsimp only
  rw [alookup_ainsert_self]
  unfold getItem resolveDF
  dsimp only
  rw [if_pos rfl]
  dsimp only
  rw [dfReadAt_append hwf]
  simp [newEntry]

/-! ## Varint lemmas (for the dtypes.go helpers) -/

theorem lor_shiftLeft_eq_add {x y s : Nat} (hx : x < 2 ^ s) :
    x ||| (y <<< s) = y * 2 ^ s + x := by
  rw [Nat.lor_comm, Nat.shiftLeft_eq, Nat.mul_comm y (2 ^ s),
    ← Nat.mul_add_lt_is_or hx y]

theorem uvarintBytes_length_le : ∀ (k u : Nat), u < 2 ^ (7 * k + 7) →
    (uvarintBytes u).length ≤ k + 1 := by
  intro k
  induction k with
  | zero =>
    intro u hu
    rw [uvarintBytes, dif_pos (by norm_num at hu ⊢; omega)]
    rfl
  | succ k ih =>
    intro u hu
    by_cases h : u < 128
    · rw [uvarintBytes, dif_pos h]
      simp
    · rw [uvarintBytes, dif_neg h]
      simp only [List.length_cons]
      have hdiv : u / 128 < 2 ^ (7 * k + 7) := by
        have h1 : u < 128 * 2 ^ (7 * k + 7) := by
          have : (2 : Nat) ^ (7 * (k + 1) + 7) = 128 * 2 ^ (7 * k + 7) := by
            rw [show 7 * (k + 1) + 7 = 7 + (7 * k + 7) by ring, pow_add]
            norm_num
          omega
        omega
      exact Nat.succ_le_succ (ih _ hdiv)

/-- The `Uvarint` loop applied to the encoding of `u` (followed by anything)
accumulates `u` at the current shift and reports the encoded length, as long
as the value still fits a `uint64` at that shift. -/
theorem uvarintAux_encode : ∀ (u : Nat) (rest : List Nat) (x s i : Nat),
    x < 2 ^ s → s = 7 * i → i ≤ 9 → u * 2 ^ s < 2 ^ 64 →
    uvarintAux (uvarintBytes u ++ rest) x s i
      = (x + u * 2 ^ s, (i : Int) + (uvarintBytes u).length) := by
  intro u
  induction u using Nat.strong_induction_on with
  | _ u ih =>
    intro rest x s i hx hs hi9 hu
    have hs63 : s ≤ 63 := by subst hs; omega
    by_cases h128 : u < 128
    · rw [uvarintBytes, dif_pos h128]
      simp only [List.singleton_append, List.length_singleton]
      unfold uvarintAux
      rw [if_pos h128]
      have hov : ¬ (i > 9 ∨ (i = 9 ∧ u > 1)) := by
        push_neg
        refine ⟨by omega, fun h9 => ?_⟩
        subst h9
        have hs' : s = 63 := by omega
        subst hs'
        by_contra hgt
        push_neg at hgt
        have : 2 * 2 ^ 63 ≤ u * 2 ^ 63 :=
          Nat.mul_le_mul_right _ (by omega)
        norm_num at this hu
        omega
      rw [if_neg hov]
      have hadd := lor_shiftLeft_eq_add (y := u) hx
      have hlt : u * 2 ^ s + x < 2 ^ 64 := by
        have h1 : u < 2 ^ (64 - s) := by
          have hpow : (2 : Nat) ^ 64 = 2 ^ (64 - s) * 2 ^ s := by
            rw [← pow_add]
            congr 1
            omega
          rw [hpow] at hu
          exact Nat.lt_of_mul_lt_mul_right hu
        have h2 : (u + 1) * 2 ^ s ≤ 2 ^ (64 - s) * 2 ^ s :=
          Nat.mul_le_mul_right _ (by omega)
        have h3 : (2 : Nat) ^ (64 - s) * 2 ^ s = 2 ^ 64 := by
          rw [← pow_add]
          congr 1
          omega
        have h4 : u * 2 ^ s + x < (u + 1) * 2 ^ s := by
          have : u * 2 ^ s + x < u * 2 ^ s + 2 ^ s := by omega
          calc u * 2 ^ s + x < u * 2 ^ s + 2 ^ s := this
            _ = (u + 1) * 2 ^ s := by ring
        omega
      rw [hadd, Nat.mod_eq_of_lt hlt]
      simp only [Prod.mk.injEq, Nat.cast_one]
      exact ⟨by omega, trivial⟩
    · rw [uvarintBytes, dif_neg h128]
      simp only [List.cons_append, List.length_cons]
      unfold uvarintAux
      rw [if_neg (by omega : ¬ u % 128 + 128 < 128)]
      have hmod : (u % 128 + 128) % 128 = u % 128 := by omega
      have hshift : (u % 128) <<< s = u % 128 * 2 ^ s := Nat.shiftLeft_eq _ _
      have hx' : x ||| (u % 128) <<< s = u % 128 * 2 ^ s + x :=
        lor_shiftLeft_eq_add hx
      have hi8 : i ≤ 8 := by
        by_contra hgt
        push_neg at hgt
        have hi9' : i = 9 := by omega
        subst hi9'
        have hs' : s = 63 := by omega
        subst hs'
        have : 128 * 2 ^ 63 ≤ u * 2 ^ 63 := Nat.mul_le_mul_right _ (by omega)
        norm_num at this hu
        omega
      have hxlt : u % 128 * 2 ^ s + x < 2 ^ (s + 7) := by
        have h1 : u % 128 * 2 ^ s + x < (u % 128 + 1) * 2 ^ s := by
          have : u % 128 * 2 ^ s + x < u % 128 * 2 ^ s + 2 ^ s := by omega
          calc u % 128 * 2 ^ s + x < u % 128 * 2 ^ s + 2 ^ s := this
            _ = (u % 128 + 1) * 2 ^ s := by ring
        have h2 : (u % 128 + 1) * 2 ^ s ≤ 128 * 2 ^ s :=
          Nat.mul_le_mul_right _ (by omega)
        have h3 : (128 : Nat) * 2 ^ s = 2 ^ (s + 7) := by
          rw [pow_add]
          ring
        omega
      have hxlt64 : u % 128 * 2 ^ s + x < 2 ^ 64 := by
        have : (2 : Nat) ^ (s + 7) ≤ 2 ^ 64 :=
          Nat.pow_le_pow_right (by norm_num) (by omega)
        omega
      have hulow : u / 128 * 2 ^ (s + 7) < 2 ^ 64 := by
        have : u / 128 * 2 ^ (s + 7) ≤ u * 2 ^ s := by
          have h1 : u / 128 * 2 ^ (s + 7) = u / 128 * 128 * 2 ^ s := by
            rw [pow_add]
            ring
          have h2 : u / 128 * 128 ≤ u := Nat.div_mul_le_self u 128
          rw [h1]
          exact Nat.mul_le_mul_right _ h2
        omega
      have hrec := ih (u / 128) (Nat.div_lt_self (by omega) (by norm_num)) rest
        (u % 128 * 2 ^ s + x) (s + 7) (i + 1) hxlt (by omega) (by omega) hulow
      rw [hmod, hx', Nat.mod_eq_of_lt hxlt64, hrec]
      have hval : u % 128 * 2 ^ s + x + u / 128 * 2 ^ (s + 7)
          = x + u * 2 ^ s := by
        have h1 : u / 128 * 2 ^ (s + 7) = u / 128 * 128 * 2 ^ s := by
          rw [pow_add]
          ring
        have h2 : u % 128 + 128 * (u / 128) = u := Nat.mod_add_div u 128
        rw [h1]
        nlinarith [h2]
      rw [hval]
      simp only [Prod.mk.injEq]
      refine ⟨trivial, ?_⟩
      push_cast
      ring

/-- Decoding the fixed 10-byte buffer `PutUvarint` filled recovers the value
and reports the unpadded varint length. -/
theorem uvarint_putUvarintBuf {u : Nat} (hu : u < 2 ^ 64) :
    uvarint (putUvarintBuf u) = (u, ((uvarintBytes u).length : Int)) := by
  unfold uvarint putUvarintBuf
  have h := uvarintAux_encode u (List.replicate (10 - (uvarintBytes u).length) 0)
    0 0 0 (by norm_num) (by norm_num) (by norm_num) (by simpa using hu)
  simpa using h

theorem putUvarintBuf_length {u : Nat} (hu : u < 2 ^ 64) :
    (putUvarintBuf u).length = 10 := by
  have hle : (uvarintBytes u).length ≤ 10 := by
    have := uvarintBytes_length_le 9 u (by norm_num at hu ⊢; omega)
    omega
  unfold putUvarintBuf
  simp only [List.length_append, List.length_replicate]
  omega

theorem zigzag_lt (x : Int) : zigzag x < 2 ^ 64 := by
  unfold zigzag
  split
  · have : uint64OfInt x * 2 % 2 ^ 64 < 2 ^ 64 := Nat.mod_lt _ (by norm_num)
    omega
  · exact Nat.mod_lt _ (by norm_num)

/-- Zigzag decoding inverts zigzag encoding on the `int64` range. -/
theorem varint_putVarintBuf {x : Int} (hx1 : -(2 ^ 63) ≤ x) (hx2 : x < 2 ^ 63) :
    varint (putVarintBuf x)
      = (x, ((uvarintBytes (zigzag x)).length : Int)) := by
  have huv : uvarint (putUvarintBuf (zigzag x))
      = (zigzag x, ((uvarintBytes (zigzag x)).length : Int)) :=
    uvarint_putUvarintBuf (zigzag_lt x)
  unfold varint putVarintBuf
  rw [huv]
  by_cases hneg : x < 0
  · have hm : ∃ m : Nat, 1 ≤ m ∧ m ≤ 2 ^ 63 ∧ x = -(m : Int) := by
      refine ⟨(-x).toNat, by omega, by omega, by omega⟩
    obtain ⟨m, hm1, hm2, rfl⟩ := hm
    have hu64 : uint64OfInt (-(m : Int)) = 2 ^ 64 - m := by
      unfold uint64OfInt
      have hmod : (-(m : Int)) % (2 ^ 64 : Int) = (2 ^ 64 : Int) - m := by
        omega
      rw [hmod]
      omega
    have hzz : zigzag (-(m : Int)) = 2 * m - 1 := by
      unfold zigzag
      rw [if_pos (by omega), hu64]
      have h1 : (2 ^ 64 - m) * 2 = 2 ^ 64 + (2 ^ 64 - 2 * m) := by omega
      have h2 : ((2 ^ 64 : Nat) + (2 ^ 64 - 2 * m)) % 2 ^ 64
          = (2 ^ 64 - 2 * m) % 2 ^ 64 := by
        omega
      have h3 : ((2 ^ 64 : Nat) - 2 * m) % 2 ^ 64 = 2 ^ 64 - 2 * m :=
        Nat.mod_eq_of_lt (by omega)
      rw [h1, h2, h3]
      omega
    rw [hzz]
    have hodd : (2 * m - 1) % 2 = 1 := by omega
    rw [if_pos hodd]
    have hdiv : (2 * m - 1) / 2 = m - 1 := by omega
    rw [hdiv]
    simp only [Prod.mk.injEq]
    refine ⟨?_, trivial⟩
    push_cast [Nat.cast_sub hm1]
    ring
  · have hnn : 0 ≤ x := by omega
    have hu64 : uint64OfInt x = x.toNat := by
      unfold uint64OfInt
      rw [Int.emod_eq_of_lt hnn (by omega)]
    have hzz : zigzag x = 2 * x.toNat := by
      unfold zigzag
      rw [if_neg hneg, hu64]
      rw [Nat.mod_eq_of_lt (by omega)]
      ring
    rw [hzz]
    rw [if_neg (by omega)]
    simp only [Prod.mk.injEq]
    refine ⟨?_, trivial⟩
    have h2 : 2 * x.toNat / 2 = x.toNat := by omega
    rw [h2]
    omega

/-! ## Recovery-equivalence lemmas -/

theorem encJoin_nil : encJoin [] = [] := rfl

theorem encJoin_cons (e : Entry) (es : List Entry) :
    encJoin (e :: es) = encodeEntry e ++ encJoin es := by
  simp [encJoin]

theorem encJoin_singleton (e : Entry) : encJoin [e] = encodeEntry e := by
  simp [encJoin]

theorem encJoin_append (l₁ l₂ : List Entry) :
    encJoin (l₁ ++ l₂) = encJoin l₁ ++ encJoin l₂ := by
  simp [encJoin]

/-- The byte replay of a segment consisting of well-formed frames computes
the entry-level replay. -/
theorem replayLoop_encJoin (es : List Entry) (t : Trie) (fid off : Nat)
    (hwf : ∀ e ∈ es, WFEntry e) :
    replayLoop t fid (encJoin es) off = .ok (replayFoldSeg t fid es off) := by
  induction es generalizing t off with
  | nil =>
    rw [replayLoop]
    rfl
  | cons e rest ih =>
    rw [encJoin_cons, replayLoop]
    have hds := decodeStream_encodeEntry (hwf e (List.mem_cons_self _ _)) (encJoin rest)
    rw [hds]
    dsimp only
    have hdrop : ((encodeEntry e ++ encJoin rest).drop (encLen e)) = encJoin rest := by
      rw [← encodeEntry_length e]
      exact List.drop_left _ _
    rw [hdrop]
    rw [show replayFoldSeg t fid (e :: rest) off
      = replayFoldSeg (replayStep t fid e off (encLen e)) fid rest (off + encLen e)
      from rfl]
    exact ih _ _ (fun e' he' => hwf e' (List.mem_cons_of_mem _ he'))

theorem sumEnc_encJoin (es : List Entry) : (encJoin es).length
    = (es.map encLen).sum := by
  induction es with
  | nil => rfl
  | cons e rest ih =>
    rw [encJoin_cons]
    simp [encodeEntry_length, ih]

theorem replayFoldSeg_append (t : Trie) (fid : Nat) (es : List Entry)
    (e : Entry) (off : Nat) :
    replayFoldSeg t fid (es ++ [e]) off
      = replayStep (replayFoldSeg t fid es off) fid e
          (off + (es.map encLen).sum) (encLen e) := by
  induction es generalizing t off with
  | nil => simp [replayFoldSeg]
  | cons e' rest ih =>
    show replayFoldSeg (replayStep t fid e' off (encLen e')) fid (rest ++ [e])
        (off + encLen e') = _
    rw [ih]
    have hidx : off + encLen e' + (List.map encLen rest).sum
        = off + (List.map encLen (e' :: rest)).sum := by
      simp only [List.map_cons, List.sum_cons]
      omega
    rw [hidx]
    rfl

theorem replayModelAux_append (t : Trie) (i : Nat) (ess : List (List Entry))
    (es : List Entry) :
    replayModelAux t i (ess ++ [es])
      = replayFoldSeg (replayModelAux t i ess) (i + ess.length) es 0 := by
  induction ess generalizing t i with
  | nil => simp [replayModelAux]
  | cons es' rest ih =>
    show replayModelAux (replayFoldSeg t i es' 0) (i + 1) (rest ++ [es]) = _
    rw [ih]
    have hidx : i + 1 + rest.length = i + (es' :: rest).length := by
      simp only [List.length_cons]
      omega
    rw [hidx]
    rfl

theorem enumContent_append (i : Nat) (ess : List (List Entry)) (es : List Entry) :
    enumContent i (ess ++ [es])
      = enumContent i ess ++ [(i + ess.length, encJoin es)] := by
  induction ess generalizing i with
  | nil => simp [enumContent]
  | cons es' rest ih =>
    show (i, encJoin es') :: enumContent (i + 1) (rest ++ [es]) = _
    rw [ih]
    have hidx : i + 1 + rest.length = i + (es' :: rest).length := by
      simp only [List.length_cons]
      omega
    rw [hidx]
    rfl

theorem enumSegs_append (i : Nat) (ess : List (List Entry)) (es : List Entry) :
    enumSegs i (ess ++ [es])
      = enumSegs i ess ++
        [(i + ess.length, (⟨i + ess.length, encJoin es, true⟩ : Datafile))] := by
  induction ess generalizing i with
  | nil => simp [enumSegs]
  | cons es' rest ih =>
    show (i, (⟨i, encJoin es', true⟩ : Datafile)) :: enumSegs (i + 1) (rest ++ [es]) = _
    rw [ih]
    have hidx : i + 1 + rest.length = i + (es' :: rest).length := by
      simp only [List.length_cons]
      omega
    rw [hidx]
    rfl

theorem enumSegs_map_content (i : Nat) (ess : List (List Entry)) :
    (enumSegs i ess).map (fun p => (p.1, p.2.content)) = enumContent i ess := by
  induction ess generalizing i with
  | nil => rfl
  | cons es rest ih => simp [enumSegs, enumContent, ih]

theorem enumContent_map_seal (i : Nat) (ess : List (List Entry)) :
    (enumContent i ess).map
        (fun p => (p.1, (⟨p.1, p.2, true⟩ : Datafile))) = enumSegs i ess := by
  induction ess generalizing i with
  | nil => rfl
  | cons es rest ih => simp [enumSegs, enumContent, ih]

theorem enumContent_map_fst (i : Nat) (ess : List (List Entry)) :
    (enumContent i ess).map Prod.fst = List.range' i ess.length := by
  induction ess generalizing i with
  | nil => rfl
  | cons es rest ih => simp [enumContent, List.range'_succ, ih]

theorem enumSegs_alookup_none (i : Nat) (ess : List (List Entry)) {j : Nat}
    (hj : i + ess.length ≤ j) : alookup (enumSegs i ess) j = none := by
  induction ess generalizing i with
  | nil => rfl
  | cons es rest ih =>
    simp only [enumSegs, alookup, List.length_cons] at hj ⊢
    rw [if_neg (by omega)]
    exact ih _ (by omega)

theorem enumContent_alookup_none (i : Nat) (ess : List (List Entry)) {j : Nat}
    (hj : i + ess.length ≤ j) : alookup (enumContent i ess) j = none := by
  induction ess generalizing i with
  | nil => rfl
  | cons es rest ih =>
    simp only [enumContent, alookup, List.length_cons] at hj ⊢
    rw [if_neg (by omega)]
    exact ih _ (by omega)

theorem ainsert_append_of_alookup_none {κ α : Type} [DecidableEq κ]
    {m : List (κ × α)} {k : κ} (h : alookup m k = none) (v : α) :
    ainsert m k v = m ++ [(k, v)] := by
  induction m with
  | nil => rfl
  | cons p rest ih =>
    obtain ⟨k', v'⟩ := p
    simp only [alookup] at h
    split at h
    · exact absurd h (by simp)
    · rename_i hk
      simp only [ainsert, if_neg hk, List.cons_append]
      exact congrArg (List.cons (k', v')) (ih h)

theorem alookup_append_right {κ α : Type} [DecidableEq κ]
    {m₁ : List (κ × α)} {k : κ} (h : alookup m₁ k = none) (m₂ : List (κ × α)) :
    alookup (m₁ ++ m₂) k = alookup m₂ k := by
  induction m₁ with
  | nil => rfl
  | cons p rest ih =>
    obtain ⟨k', v'⟩ := p
    simp only [alookup] at h
    split at h
    · exact absurd h (by simp)
    · rename_i hk
      simp only [List.cons_append, alookup, if_neg hk]
      exact ih h

theorem alookup_append_singleton_ne {κ α : Type} [DecidableEq κ]
    (m : List (κ × α)) {k k₀ : κ} (hne : k ≠ k₀) (v : α) :
    alookup (m ++ [(k, v)]) k₀ = alookup m k₀ := by
  induction m with
  | nil => simp [alookup, hne]
  | cons p rest ih =>
    obtain ⟨k', v'⟩ := p
    simp only [List.cons_append, alookup]
    split
    · rfl
    · exact ih

/-- A write on a writable handle always succeeds, with the frame appended at
the (possibly rotated) active tail. -/
theorem bput_succeeds {b : DB} (hro : b.curr.readonly = false) (k v : List Nat) :
    bput b k v = .ok ((rotateIfFull b).curr.content.length,
      encLen (newEntry k v),
      { rotateIfFull b with curr := { (rotateIfFull b).curr with
          content := (rotateIfFull b).curr.content ++
            encodeEntry (newEntry k v) } }) := by
  have hrro : (rotateIfFull b).curr.readonly = false := by
    unfold rotateIfFull
    split
    · rfl
    · exact hro
  unfold bput dfWrite
  rw [if_neg (by rw [hrro]; simp)]

/-- Invariant maintenance for the rotation-and-append transition shared by
`Put` and `Delete`: writing entry `e` and updating the index with exactly
the replay step of `e` moves the history from `(done, cur)` to either
`(done, cur ++ [e])` or `(done ++ [cur], [e])`. -/
theorem invSegs_applyOp {b : DB} {done : List (List Entry)} {cur : List Entry}
    (hinv : InvSegs b done cur) {op : Op} (hop : opWF op) :
    ∃ done' cur', InvSegs (applyOp b op) done' cur' := by
  obtain ⟨hwfall, hcurr, hdfs, htrie⟩ := hinv
  have hro : b.curr.readonly = false := by rw [hcurr]
  have hid : b.curr.id = done.length := by rw [hcurr]
  have hcontent : b.curr.content = encJoin cur := by rw [hcurr]
  cases op with
  | put k v =>
    obtain ⟨hk32, hv64, hvne⟩ := hop
    have hwfe : WFEntry (newEntry k v) := ⟨hk32, hv64, crc32_lt v⟩
    dsimp only [applyOp]
    unfold Put
    split
    · exact ⟨done, cur, hwfall, hcurr, hdfs, htrie⟩
    split
    · exact ⟨done, cur, hwfall, hcurr, hdfs, htrie⟩
    rw [bput_succeeds hro k v]
    dsimp only
    unfold rotateIfFull
    by_cases hfull : (b.curr.content.length : Int) ≥ b.config.maxDatafileSize
    · rw [if_pos hfull]
      refine ⟨done ++ [cur], [newEntry k v], ?_, ?_, ?_, ?_⟩
      · intro es hes e he
        rcases List.mem_append.mp hes with hes | hes
        · exact hwfall es (by simp at hes ⊢; tauto) e he
        · simp at hes
          subst hes
          simp at he
          subst he
          exact hwfe
      · show (⟨b.curr.id + 1, [] ++ encodeEntry (newEntry k v), false⟩ : Datafile) = _
        rw [hid, encJoin_singleton, List.nil_append, List.length_append,
          List.length_singleton]
      · show ainsert b.datafiles b.curr.id ⟨b.curr.id, b.curr.content, true⟩ = _
        rw [hid, hdfs, hcontent,
          ainsert_append_of_alookup_none (enumSegs_alookup_none 0 done (by omega)),
          enumSegs_append]
        simp
      · rw [replayModelAux_append, ← htrie]
        show ainsert b.trie k ⟨b.curr.id + 1, 0, encLen (newEntry k v)⟩
          = replayStep b.trie (0 + (done ++ [cur]).length) (newEntry k v) 0
              (encLen (newEntry k v))
        unfold replayStep
        rw [if_neg (by simpa [newEntry] using hvne)]
        rw [hid]
        simp [newEntry]
    · rw [if_neg hfull]
      refine ⟨done, cur ++ [newEntry k v], ?_, ?_, ?_, ?_⟩
      · intro es hes e he
        rcases List.mem_append.mp hes with hes | hes
        · exact hwfall es (List.mem_append_left _ hes) e he
        · simp at hes
          subst hes
          rcases List.mem_append.mp he with he | he
          · exact hwfall cur (by simp) e he
          · simp at he
            subst he
            exact hwfe
      · show (⟨b.curr.id, b.curr.content ++ encodeEntry (newEntry k v),
          b.curr.readonly⟩ : Datafile) = _
        rw [hid, hcontent, hro, encJoin_append, encJoin_singleton]
      · exact hdfs
      · show ainsert b.trie k
          ⟨b.curr.id, b.curr.content.length, encLen (newEntry k v)⟩ = _
        rw [replayModelAux_append, replayFoldSeg_append]
        rw [show replayFoldSeg (replayModelAux [] 0 done) (0 + done.length) cur 0
          = replayModelAux [] 0 (done ++ [cur]) by
            rw [replayModelAux_append]]
        rw [← htrie]
        unfold replayStep
        rw [if_neg (by simpa [newEntry] using hvne)]
        rw [hid, hcontent, sumEnc_encJoin]
        simp [newEntry]
  | delete k =>
    have hk32 : k.length < 2 ^ 32 := hop
    have hwfe : WFEntry (newEntry k []) :=
  ⟨hk32, by show ([] : List Nat).length < 2 ^ 64; norm_num, crc32_lt []⟩
    dsimp only [applyOp]
    unfold Delete
    rw [bput_succeeds hro k []]
    dsimp only
    unfold rotateIfFull
    by_cases hfull : (b.curr.content.length : Int) ≥ b.config.maxDatafileSize
    · rw [if_pos hfull]
      refine ⟨done ++ [cur], [newEntry k []], ?_, ?_, ?_, ?_⟩
      · intro es hes e he
        rcases List.mem_append.mp hes with hes | hes
        · exact hwfall es (by simp at hes ⊢; tauto) e he
        · simp at hes
          subst hes
          simp at he
          subst he
          exact hwfe
      · show (⟨b.curr.id + 1, [] ++ encodeEntry (newEntry k []), false⟩ : Datafile) = _
        rw [hid, encJoin_singleton, List.nil_append, List.length_append,
          List.length_singleton]
      · show ainsert b.datafiles b.curr.id ⟨b.curr.id, b.curr.content, true⟩ = _
        rw [hid, hdfs, hcontent,
          ainsert_append_of_alookup_none (enumSegs_alookup_none 0 done (by omega)),
          enumSegs_append]
        simp
      · rw [replayModelAux_append, ← htrie]
        show aerase b.trie k
          = replayStep b.trie (0 + (done ++ [cur]).length) (newEntry k []) 0
              (encLen (newEntry k []))
        unfold replayStep
        rw [if_pos (by show ([] : List Nat).length = 0; rfl),
          show (newEntry k []).key = k from rfl]
    · rw [if_neg hfull]
      refine ⟨done, cur ++ [newEntry k []], ?_, ?_, ?_, ?_⟩
      · intro es hes e he
        rcases List.mem_append.mp hes with hes | hes
        · exact hwfall es (List.mem_append_left _ hes) e he
        · simp at hes
          subst hes
          rcases List.mem_append.mp he with he | he
          · exact hwfall cur (by simp) e he
          · simp at he
            subst he
            exact hwfe
      · show (⟨b.curr.id, b.curr.content ++ encodeEntry (newEntry k []),
          b.curr.readonly⟩ : Datafile) = _
        rw [hid, hcontent, hro, encJoin_append, encJoin_singleton]
      · exact hdfs
      · show aerase b.trie k = _
        rw [replayModelAux_append, replayFoldSeg_append]
        rw [show replayFoldSeg (replayModelAux [] 0 done) (0 + done.length) cur 0
          = replayModelAux [] 0 (done ++ [cur]) by
            rw [replayModelAux_append]]
        rw [← htrie]
        unfold replayStep
        rw [if_pos (by show ([] : List Nat).length = 0; rfl),
          show (newEntry k []).key = k from rfl]

theorem invSegs_applyOps {b : DB} {done : List (List Entry)} {cur : List Entry}
    (hinv : InvSegs b done cur) (ops : List Op)
    (hops : ∀ op ∈ ops, opWF op) :
    ∃ done' cur', InvSegs (applyOps b ops) done' cur' := by
  induction ops generalizing b done cur with
  | nil => exact ⟨done, cur, hinv⟩
  | cons op rest ih =>
    obtain ⟨d', c', hinv'⟩ := invSegs_applyOp hinv (hops op (by simp))
    exact ih hinv' (fun o ho => hops o (by simp [ho]))

theorem range'_getD {n j : Nat} (hj : j < n) : (List.range' 0 n).getD j 0 = j := by
  have hlen : j < (List.range' 0 n).length := by simpa using hj
  rw [List.getD_eq_getElem _ _ hlen, List.getElem_range']
  omega

/-- Replaying an enumerated history segment list (ascending ids) computes
the model replay. -/
theorem replaySegs_enumContent (ids : List Nat) (i : Nat)
    (ess : List (List Entry)) (t : Trie)
    (hwf : ∀ es ∈ ess, ∀ e ∈ es, WFEntry e)
    (hids : ∀ j, i ≤ j → j < i + ess.length → ids.getD j 0 = j) :
    replaySegs t ids (enumContent i ess) = .ok (replayModelAux t i ess) := by
  induction ess generalizing t i with
  | nil => rfl
  | cons es rest ih =>
    show replaySegs t ids ((i, encJoin es) :: enumContent (i + 1) rest) = _
    unfold replaySegs
    rw [hids i (le_refl i) (by simp), replayLoop_encJoin es t i 0 (hwf es (by simp))]
    exact ih _ _ (fun es' hes' => hwf es' (by simp [hes']))
      (fun j h1 h2 => hids j (by omega) (by simp at h2 ⊢; omega))

/-- What reopen computes on the disk of a history with no index file. -/
theorem reopenDB_enumContent (cfg : Config) (opts : List OptionV)
    (done : List (List Entry)) (cur : List Entry)
    (hwf : ∀ es ∈ done ++ [cur], ∀ e ∈ es, WFEntry e) :
    reopenDB cfg opts (enumContent 0 (done ++ [cur])) none
      = .ok ({ config := cfg, options := opts,
               curr := ⟨done.length, encJoin cur, false⟩,
               datafiles := enumSegs 0 (done ++ [cur]),
               trie := replayModelAux [] 0 (done ++ [cur]) } : DB) := by
  have hmapfst : (enumContent 0 (done ++ [cur])).map Prod.fst
      = List.range' 0 (done.length + 1) := by
    rw [enumContent_map_fst]
    simp
  have hreplay : replaySegs [] ((enumContent 0 (done ++ [cur])).map Prod.fst)
      (enumContent 0 (done ++ [cur]))
      = .ok (replayModelAux [] 0 (done ++ [cur])) := by
    apply replaySegs_enumContent _ _ _ _ hwf
    intro j h1 h2
    rw [hmapfst]
    apply range'_getD
    simp at h2
    omega
  have hlast : ((enumContent 0 (done ++ [cur])).map Prod.fst).getLastD 0
      = done.length := by
    rw [hmapfst, List.range'_concat, List.getLastD_concat]
    omega
  have hcont : alookup (enumContent 0 (done ++ [cur])) done.length
      = some (encJoin cur) := by
    rw [enumContent_append,
      alookup_append_right (enumContent_alookup_none 0 done (by omega))]
    simp [alookup]
  have h0 : reopenDB cfg opts (enumContent 0 (done ++ [cur])) none
      = (match replaySegs [] ((enumContent 0 (done ++ [cur])).map Prod.fst)
            (enumContent 0 (done ++ [cur])) with
        | .error e => .error e
        | .ok t => .ok
            ({ config := cfg, options := opts,
               curr := ⟨((enumContent 0 (done ++ [cur])).map Prod.fst).getLastD 0,
                 (alookup (enumContent 0 (done ++ [cur]))
                   (((enumContent 0 (done ++ [cur])).map Prod.fst).getLastD 0)).getD [],
                 false⟩,
               datafiles := (enumContent 0 (done ++ [cur])).map
                 (fun p => (p.1, (⟨p.1, p.2, true⟩ : Datafile))),
               trie := t } : DB)) := rfl
  rw [h0, hreplay, hlast, hcont, enumContent_map_seal]
  rfl

/-- `Get` depends only on the index, the active handle and the contents
reachable through the sealed map. -/
theorem get_congr_same_state (b b2 : DB) (htrie : b2.trie = b.trie)
    (hcurr : b2.curr = b.curr)
    (hdfs : ∀ fid, fid ≠ b.curr.id →
      alookup b2.datafiles fid = alookup b.datafiles fid) (k : List Nat) :
    Get b2 k = Get b k := by
  unfold Get getItem resolveDF
  rw [htrie, hcurr]
  cases alookup b.trie k with
  | none => rfl
  | some it =>
    dsimp only
    by_cases hf : it.fileID = b.curr.id
    · simp only [if_pos hf]
    · simp only [if_neg hf, hdfs _ hf]

/-! ## Claim theorems -/

/-- C1: on an open database (sealed ids below the writable active segment),
a `Put` of a key and value within the configured size limits succeeds, and
every later `Get` of that key returns that value across any sequence of
further `Put`/`Delete` operations on other keys — i.e. until a later
`Put(k, v')` or `Delete(k)` changes it.  The two extra bounds `|k| < 2^32`
and `|v| < 2^64` are the representability limits of the frame's `uint32`/
`uint64` length prefixes, satisfied by every Go-representable input within
the default limits. -/
theorem c1_put_get_until_changed (b : DB) (key value : List Nat) (ops : List Op)
    (hids : DfIdsLe b) (hro : b.curr.readonly = false)
    (hk : (key.length : Int) ≤ b.config.maxKeySize)
    (hv : (value.length : Int) ≤ b.config.maxValueSize)
    (hk32 : key.length < 2 ^ 32) (hv64 : value.length < 2 ^ 64)
    (hops : ∀ op ∈ ops, opKey op ≠ key) :
    (Put b key value).2 = none ∧
    Get (applyOps (Put b key value).1 ops) key = .ok value := by
  obtain ⟨h1, h2⟩ := get_after_put b key value hro hk hv hk32 hv64
  exact ⟨h1, get_applyOps (dfIdsLe_applyOp hids (.put key value)) h2 hops⟩

/-- C1 witness: a fresh database, Put [1] ↦ [2, 3], then a Put of another
key and a Delete of another key; Get [1] still returns [2, 3]. -/
theorem c1_put_get_until_changed_witness :
    (∀ op ∈ [Op.put [4] [5], Op.delete [9]], opKey op ≠ [1]) ∧
    (Put (openEmpty defaultConfig []) [1] [2, 3]).2 = none ∧
    Get (applyOps (Put (openEmpty defaultConfig []) [1] [2, 3]).1
      [Op.put [4] [5], Op.delete [9]]) [1] = .ok [2, 3] :=
  ⟨by decide,
   (c1_put_get_until_changed (openEmpty defaultConfig []) [1] [2, 3]
     [Op.put [4] [5], Op.delete [9]]
     (fun p hp => absurd hp (by simp [openEmpty])) rfl (by decide) (by decide)
     (by decide) (by decide) (by decide)).1,
   (c1_put_get_until_changed (openEmpty defaultConfig []) [1] [2, 3]
     [Op.put [4] [5], Op.delete [9]]
     (fun p hp => absurd hp (by simp [openEmpty])) rfl (by decide) (by decide)
     (by decide) (by decide) (by decide)).2⟩

/-- C10: for every stored uint64 value whose unsigned-varint encoding is
shorter than the full 10-byte buffer `PutUint` writes, `GetUint` fails with
a decode error instead of returning the value, because it requires the
varint to consume the entire stored buffer; `PutInt`/`GetInt`, which only
reject a negative byte count, round-trip every int64. -/
theorem c10_uint_varint_padding (b : DB) (key : List Nat) (v : Nat) (x : Int)
    (hro : b.curr.readonly = false)
    (hk : (key.length : Int) ≤ b.config.maxKeySize)
    (hk32 : key.length < 2 ^ 32)
    (hbuf : (10 : Int) ≤ b.config.maxValueSize)
    (hv : v < 2 ^ 64) (hshort : (uvarintBytes v).length < 10)
    (hx1 : -(2 ^ 63) ≤ x) (hx2 : x < 2 ^ 63) :
    GetUint (PutUint b key v).1 key = .error .decodeError ∧
    GetInt (PutInt b key x).1 key = .ok x := by
  constructor
  · unfold PutUint GetUint
    have hlen := putUvarintBuf_length hv
    have hget := (get_after_put b key (putUvarintBuf v) hro hk
      (by rw [hlen]; exact hbuf) hk32 (by rw [hlen]; norm_num)).2
    rw [hget]
    dsimp only
    rw [uvarint_putUvarintBuf hv]
    dsimp only
    rw [hlen, if_pos (by omega : ¬ ((uvarintBytes v).length : Int) = (10 : Nat))]
  · unfold PutInt GetInt
    have hlen := putUvarintBuf_length (zigzag_lt x)
    have hget := (get_after_put b key (putVarintBuf x) hro hk
      (by unfold putVarintBuf; rw [hlen]; exact hbuf) hk32
      (by unfold putVarintBuf; rw [hlen]; norm_num)).2
    rw [hget]
    dsimp only
    rw [varint_putVarintBuf hx1 hx2]
    dsimp only
    rw [if_neg (by omega : ¬ ((uvarintBytes (zigzag x)).length : Int) < 0)]

/-- C10 witness: PutUint of 5 (one varint byte, nine zero padding bytes)
then GetUint is a decode error; PutInt of -1234 then GetInt returns
-1234. -/
theorem c10_uint_varint_padding_witness :
    GetUint (PutUint (openEmpty defaultConfig []) [1] 5).1 [1] =
      .error .decodeError ∧
    GetInt (PutInt (openEmpty defaultConfig []) [1] (-1234)).1 [1] =
      .ok (-1234) :=
  c10_uint_varint_padding (openEmpty defaultConfig []) [1] 5 (-1234) rfl
    (by decide) (by decide) (by decide) (by norm_num)
    (by rw [show uvarintBytes 5 = [5] by rw [uvarintBytes]; norm_num]; norm_num)
    (by norm_num) (by norm_num)

/-- C2 (counterexample): recovery equivalence fails as stated.  On a
database D1 holding one successful `Put [1] []` (an empty value), Len is 1
and Get returns the empty value; reopening its segments without the index
file treats the zero-length-value record as a tombstone and erases the key,
giving a D2 with Len 0 and key-not-found. -/
theorem c2_counterexample :
    (Put (openEmpty defaultConfig []) [1] []).2 = none ∧
    Len (Put (openEmpty defaultConfig []) [1] []).1 = 1 ∧
    Get (Put (openEmpty defaultConfig []) [1] []).1 [1] = .ok [] ∧
    ∃ b2, reopenDB defaultConfig []
        (segsOnDisk (Put (openEmpty defaultConfig []) [1] []).1) none = .ok b2 ∧
      Len b2 = 0 ∧ Get b2 [1] = .error .keyNotFound := by
  refine ⟨by decide, by decide, by decide, ?_⟩
  have hsegs : segsOnDisk (Put (openEmpty defaultConfig []) [1] []).1
      = enumContent 0 ([] ++ [[newEntry [1] []]]) := by decide
  have hre := reopenDB_enumContent defaultConfig [] [] [newEntry [1] []]
    (by
      intro es hes e he
      simp at hes
      subst hes
      simp at he
      subst he
      exact ⟨by decide, by decide, crc32_lt []⟩)
  rw [hsegs, hre]
  exact ⟨_, rfl, by decide, by decide⟩

/-- C2 (amended): for a database built from any sequence of representable
operations in which no successful `Put` stored an empty value, a clean close
followed by deleting the index file and reopening the directory — with the
segment map enumerated in ascending id order, one admissible order of Go's
unspecified map iteration — yields a database with the same Len and with Get
returning the same result for every key. -/
theorem c2_recovery_equivalence (cfg : Config) (opts : List OptionV)
    (ops : List Op) (hops : ∀ op ∈ ops, opWF op) :
    ∃ b2, reopenDB cfg opts
        (segsOnDisk (applyOps (openEmpty cfg opts) ops)) none = .ok b2 ∧
      Len b2 = Len (applyOps (openEmpty cfg opts) ops) ∧
      ∀ k, Get b2 k = Get (applyOps (openEmpty cfg opts) ops) k := by
  have hbase : InvSegs (openEmpty cfg opts) [] [] := ⟨by simp, rfl, rfl, rfl⟩
  obtain ⟨done, cur, hinv⟩ := invSegs_applyOps hbase ops hops
  obtain ⟨hwfall, hcurr, hdfs, htrie⟩ := hinv
  have hsegs : segsOnDisk (applyOps (openEmpty cfg opts) ops)
      = enumContent 0 (done ++ [cur]) := by
    unfold segsOnDisk
    rw [hcurr, hdfs,
      ainsert_append_of_alookup_none (enumSegs_alookup_none 0 done
        (by show 0 + done.length ≤ done.length; omega)),
      List.map_append, enumSegs_map_content, enumContent_append]
    simp
  rw [hsegs, reopenDB_enumContent cfg opts done cur hwfall]
  refine ⟨_, rfl, ?_, ?_⟩
  · show (replayModelAux [] 0 (done ++ [cur])).length = _
    rw [← htrie]
    rfl
  · intro k
    apply get_congr_same_state
    · exact htrie.symm
    · exact hcurr.symm
    · intro fid hf
      show alookup (enumSegs 0 (done ++ [cur])) fid = _
      rw [hdfs, enumSegs_append]
      have hne : 0 + done.length ≠ fid := by
        intro h
        refine hf ?_
        rw [hcurr]
        show fid = done.length
        omega
      rw [alookup_append_singleton_ne _ hne]

/-- C2 amended witness: one representable Put, recovered exactly. -/
theorem c2_recovery_equivalence_witness :
    (∀ op ∈ [Op.put [1] [2]], opWF op) ∧
    ∃ b2, reopenDB defaultConfig []
        (segsOnDisk (applyOps (openEmpty defaultConfig []) [Op.put [1] [2]])) none
        = .ok b2 ∧
      Len b2 = Len (applyOps (openEmpty defaultConfig []) [Op.put [1] [2]]) ∧
      ∀ k, Get b2 k
        = Get (applyOps (openEmpty defaultConfig []) [Op.put [1] [2]]) k :=
  ⟨by decide, c2_recovery_equivalence defaultConfig [] [Op.put [1] [2]] (by decide)⟩

/-- C3 (claim falsified at a concrete input): `Decoder.Decode` in
internal/codec/codec.go passes the parsed value size — not the key size — as
the split point to `DecodeWithoutPrefix`.  On the well-formed frame for key
[10] and value [20, 30] it therefore returns key [10, 20] and value [30], and
re-encoding that entry does not reproduce the frame (its length prefixes are
swapped); the sibling decoder in package data (src/unnamed/part_000) splits
at the key size and round-trips the same frame exactly. -/
theorem c3_codec_decode_misplits :
    codecDecodeStream (encodeEntry ⟨[10], [20, 30], crc32 [20, 30]⟩) =
      .ok (⟨[10, 20], [30], crc32 [20, 30]⟩, 19) ∧
    encodeEntry ⟨[10, 20], [30], crc32 [20, 30]⟩ ≠
      encodeEntry ⟨[10], [20, 30], crc32 [20, 30]⟩ ∧
    decodeStream (encodeEntry ⟨[10], [20, 30], crc32 [20, 30]⟩) =
      .ok (⟨[10], [20, 30], crc32 [20, 30]⟩, 19) ∧
    encodeEntry ⟨[10], [20, 30], crc32 [20, 30]⟩ =
      encodeEntry ⟨[10], [20, 30], crc32 [20, 30]⟩ := by
  refine ⟨by decide, by decide, by decide, rfl⟩

/-- C4 (counterexample): `Put` with an empty value is not handled as a
tombstone on the live index — it succeeds, leaves an index entry for the key
pointing at the zero-length-value record, and a subsequent `Get` returns the
empty value rather than key-not-found. -/
theorem c4_counterexample :
    (Put (openEmpty defaultConfig []) [5] []).2 = none ∧
    alookup (Put (openEmpty defaultConfig []) [5] []).1.trie [5] =
      some ⟨0, 0, 17⟩ ∧
    Get (Put (openEmpty defaultConfig []) [5] []).1 [5] = .ok [] := by
  refine ⟨by decide, by decide, by decide⟩

/-- C4 (amended): after a successful `Delete k` — the operation that writes
the tombstone record and erases the key — the in-memory index contains no
entry for `k` and a subsequent `Get k` returns key-not-found.  (A `Put` with
an empty value, by contrast, inserts an index entry; see the
counterexample.) -/
theorem c4_amended_delete_tombstone (b : DB) (key : List Nat)
    (hok : (Delete b key).2 = none) :
    alookup (Delete b key).1.trie key = none ∧
    Get (Delete b key).1 key = .error .keyNotFound := by
  unfold Delete at *
  cases hput : bput b key [] with
  | error e => rw [hput] at hok; simp at hok
  | ok r =>
    obtain ⟨off, n, b'⟩ := r
    simp only at hok ⊢
    have hlook : alookup (aerase b'.trie key) key = none :=
      alookup_aerase_self _ _
    exact ⟨hlook, by simp [Get, hlook]⟩

/-- C4 amended witness at a concrete input. -/
theorem c4_amended_delete_tombstone_witness :
    (Delete (openEmpty defaultConfig []) [5]).2 = none ∧
    alookup (Delete (openEmpty defaultConfig []) [5]).1.trie [5] = none ∧
    Get (Delete (openEmpty defaultConfig []) [5]).1 [5] = .error .keyNotFound := by
  have h := c4_amended_delete_tombstone (openEmpty defaultConfig []) [5] (by decide)
  exact ⟨by decide, h.1, h.2⟩

/-- C5 (code bug evidenced at a concrete input): `Fold`'s callback tests the
visitor's error in an `if`-scoped variable instead of assigning the named
result, so although the traversal stops at the first error (the visitor runs
on the first key only), `Fold` returns nil instead of that error — contrary
to its own doc comment; `Scan`, whose callback assigns the named result,
returns the error. -/
theorem c5_fold_swallows_error :
    Fold ((Put ((Put (openEmpty defaultConfig []) [1] [2]).1) [3] [4]).1)
      (fun _ => some 7) = none ∧
    (forEachStop ((Put ((Put (openEmpty defaultConfig []) [1] [2]).1) [3] [4]).1).trie
      (fun _ => some 7)).1 = [[1]] ∧
    (forEachStop ((Put ((Put (openEmpty defaultConfig []) [1] [2]).1) [3] [4]).1).trie
      (fun _ => some 7)).2 = some 7 ∧
    Scan ((Put ((Put (openEmpty defaultConfig []) [1] [2]).1) [3] [4]).1) []
      (fun _ => some 7) = some 7 := by
  refine ⟨rfl, by decide, by decide, by decide⟩

/-- C6 (code bug evidenced at a concrete input): `Merge` silently loses
data.  On a database whose persisted config allows 100-byte keys (opened
without option functions, as after a reopen of a configured directory), a
65-byte key is live; `Merge` opens its temporary database with the default
config (options replayed onto defaults), the `Put` into it fails with
key-too-large, `Fold` swallows that error (see C5), and Merge then replaces
the directory with the truncated merged database and reports success: Len
drops from 1 to 0 and Get turns into key-not-found, although Merge
completed successfully. -/
theorem c6_merge_loses_keys :
    (Put (openEmpty { defaultConfig with maxKeySize := 100 } [])
      (List.replicate 65 3) [7]).2 = none ∧
    Len (Put (openEmpty { defaultConfig with maxKeySize := 100 } [])
      (List.replicate 65 3) [7]).1 = 1 ∧
    Get (Put (openEmpty { defaultConfig with maxKeySize := 100 } [])
      (List.replicate 65 3) [7]).1 (List.replicate 65 3) = .ok [7] ∧
    ∃ b2, Merge (Put (openEmpty { defaultConfig with maxKeySize := 100 } [])
        (List.replicate 65 3) [7]).1 = .ok b2 ∧
      Len b2 = 0 ∧
      Get b2 (List.replicate 65 3) = .error .keyNotFound := by
  refine ⟨by decide, by decide, by decide, ?_⟩
  refine ⟨_, rfl, by decide, by decide⟩

/-- C7: an over-long key (or, with the key within bounds, an over-long
value) makes `Put` return key-too-large (value-too-large) with the database
state — index, Len and every segment file — completely unchanged: the error
is raised before any write. -/
theorem c7_put_size_limit_atomicity (b : DB) (key value : List Nat) :
    ((key.length : Int) > b.config.maxKeySize →
      Put b key value = (b, some .keyTooLarge)) ∧
    ((key.length : Int) ≤ b.config.maxKeySize →
      (value.length : Int) > b.config.maxValueSize →
      Put b key value = (b, some .valueTooLarge)) := by
  constructor
  · intro hk
    unfold Put
    rw [if_pos hk]
  · intro hk hv
    unfold Put
    rw [if_neg (by omega), if_pos hv]

/-- C7 witness: spec scenario C — maxKeySize 8, a 9-byte key is rejected
with key-too-large and Len stays 0; a value over the limit is rejected with
value-too-large likewise without a state change. -/
theorem c7_put_size_limit_atomicity_witness :
    Put (openEmpty { defaultConfig with maxKeySize := 8 } [])
      [1, 2, 3, 4, 5, 6, 7, 8, 9] [1] =
      (openEmpty { defaultConfig with maxKeySize := 8 } [], some .keyTooLarge) ∧
    Len (openEmpty { defaultConfig with maxKeySize := 8 } []) = 0 ∧
    Put (openEmpty { defaultConfig with maxValueSize := 0 } []) [1] [2] =
      (openEmpty { defaultConfig with maxValueSize := 0 } [], some .valueTooLarge) := by
  refine ⟨(c7_put_size_limit_atomicity _ _ _).1 (by decide), by decide,
    (c7_put_size_limit_atomicity _ _ _).2 (by decide) (by decide)⟩

/-- C8: when the active segment's size has reached the configured maximum
datafile size, the internal write path seals the active segment — it becomes
a read-only handle under its id in the segment map with its content frozen —
opens a new active segment whose id is the previous active id plus 1, and
writes the new entry to that new segment (at offset 0 of its fresh
content). -/
theorem c8_rotation (b : DB) (key value : List Nat)
    (hfull : (b.curr.content.length : Int) ≥ b.config.maxDatafileSize) :
    bput b key value = .ok (0, encLen (newEntry key value),
      { b with
        datafiles := ainsert b.datafiles b.curr.id
          ⟨b.curr.id, b.curr.content, true⟩,
        curr := ⟨b.curr.id + 1, encodeEntry (newEntry key value), false⟩ }) := by
  unfold bput rotateIfFull
  rw [if_pos hfull]
  unfold rotate dfWrite
  simp

/-- C8 witness: with maxDatafileSize 0 the very first write rotates: the
empty segment 0 is sealed and the write lands in the new active segment 1. -/
theorem c8_rotation_witness :
    bput (openEmpty { defaultConfig with maxDatafileSize := 0 } []) [1] [2] =
      .ok (0, encLen (newEntry [1] [2]),
        { openEmpty { defaultConfig with maxDatafileSize := 0 } [] with
          datafiles := [(0, ⟨0, [], true⟩)],
          curr := ⟨1, encodeEntry (newEntry [1] [2]), false⟩ }) := by
  have h := c8_rotation (openEmpty { defaultConfig with maxDatafileSize := 0 } [])
    [1] [2] (by decide)
  simpa [openEmpty, ainsert] using h

/-- C9: supplying the memory-pool option with a zero or negative concurrency
makes the option-application loop of `Open` fail with the
invalid-argument error `ErrMaxConcurrencyLowerEqZero`, so `Open` rejects the
configuration; every positive concurrency is accepted and recorded on the
config. -/
theorem c9_mem_pool_concurrency (cfg : Config) (mc mtps : Int) :
    (mc ≤ 0 → applyOptions cfg [OptionV.withMemPool mc mtps] =
      .error .maxConcurrencyLowerEqZero) ∧
    (0 < mc → applyOptions cfg [OptionV.withMemPool mc mtps] =
      .ok { cfg with maxConcurrency := some mc }) := by
  constructor
  · intro h
    simp [applyOptions, applyOption, h]
  · intro h
    have h' : ¬ mc ≤ 0 := not_le.mpr h
    simp [applyOptions, applyOption, h']

/-- C9 witness at concrete inputs: 0 is rejected, 1 is accepted. -/
theorem c9_mem_pool_concurrency_witness :
    applyOptions defaultConfig [OptionV.withMemPool 0 10] =
      .error .maxConcurrencyLowerEqZero ∧
    applyOptions defaultConfig [OptionV.withMemPool 1 10] =
      .ok { defaultConfig with maxConcurrency := some 1 } :=
  ⟨(c9_mem_pool_concurrency defaultConfig 0 10).1 (by decide),
   (c9_mem_pool_concurrency defaultConfig 1 10).2 (by decide)⟩

end Bitcask
